import Mathlib

/-!
Shallow embedding of the parachain candidate-agreement core
(`polkadot/consensus/src/lib.rs`), the inherents staging pool
(`core/inherents/src/pool.rs`) and the contract account database
(`srml/contract/src/account_db.rs`), together with proofs of the
specification claims about them.

Machine integers of the source are modelled as `Nat` (all the quantities
involved — sizes, indices, timestamps — are used well below overflow in
the source paths under study).  Byte strings are modelled as `List Nat`.
-/

namespace Spec2Proof

/-! ## Basic data model

`AuthorityId` is a 32-byte public key, `Hash` a 32-byte content hash,
`ParaId` an integer-like shard identifier.  They are modelled as `Nat`;
only equality and membership of them are used by the embedded code. -/

abbrev AuthorityId := Nat
abbrev Hash := Nat
abbrev ParaId := Nat

/-- `CandidateReceipt`: shard-produced record; its hash is the candidate
digest.  Only the shard id and an opaque payload matter to the embedded
code. -/
structure CandidateReceipt where
  group : ParaId
  payload : Nat
  deriving DecidableEq, Repr

/-- Hash of a candidate receipt (the candidate digest).  Modelled as an
injective pairing of the receipt's fields. -/
def CandidateReceipt.hash (r : CandidateReceipt) : Hash :=
  Nat.pair r.group r.payload

/-! ## Inherents pool (`core/inherents/src/pool.rs`)

The pool holds a vector behind a mutex; `add` pushes, `drain` swaps the
vector with an empty one.  The mutex only serialises access, so the
sequential model is a plain list. -/

structure InherentsPool (T : Type) where
  data : List T
  deriving DecidableEq, Repr

namespace InherentsPool

def empty {T : Type} : InherentsPool T := ⟨[]⟩

/-- `add(extrinsic)`: `self.data.lock().push(extrinsic)`. -/
def add {T : Type} (p : InherentsPool T) (x : T) : InherentsPool T :=
  ⟨p.data ++ [x]⟩

/-- `drain()`: `mem::replace(&mut *self.data.lock(), vec![])`, returning
the previous contents and leaving the pool empty. -/
def drain {T : Type} (p : InherentsPool T) : List T × InherentsPool T :=
  (p.data, ⟨[]⟩)

end InherentsPool

/-! ## Contract overlay account database (`srml/contract/src/account_db.rs`) -/

abbrev AccountId := Nat
abbrev Balance := Nat
abbrev Bytes := List Nat

/-- `ChangeEntry<T>`: a partial change to one account.  The storage map
`BTreeMap<Vec<u8>, Option<Vec<u8>>>` is modelled as a function returning
`none` for keys that are absent and `some v` (with `v : Option Bytes`)
for keys present. -/
structure ChangeEntry where
  balance : Option Balance
  code : Option Bytes
  storage : Bytes → Option (Option Bytes)

instance : Inhabited ChangeEntry := ⟨⟨none, none, fun _ => none⟩⟩

/-- The `AccountDb` trait restricted to its getters; used as the
underlying database of an overlay. -/
structure AccountDbI where
  get_storage : AccountId → Bytes → Option Bytes
  get_code : AccountId → Bytes
  get_balance : AccountId → Balance

/-- `OverlayAccountDb`: a local change set in front of an underlying
database.  The `BTreeMap<AccountId, ChangeEntry>` is modelled as a
function to `Option ChangeEntry`. -/
structure OverlayAccountDb where
  localMap : AccountId → Option ChangeEntry
  underlying : AccountDbI

namespace OverlayAccountDb

def new (u : AccountDbI) : OverlayAccountDb :=
  ⟨fun _ => none, u⟩

/-- `entry(account).or_insert(Default::default())` read side. -/
def entryOf (ov : OverlayAccountDb) (a : AccountId) : ChangeEntry :=
  (ov.localMap a).getD default

def setEntry (ov : OverlayAccountDb) (a : AccountId) (e : ChangeEntry) :
    OverlayAccountDb :=
  { ov with localMap := fun b => if b = a then some e else ov.localMap b }

/-- `set_storage`: insert `value` at `location` in the account's entry. -/
def set_storage (ov : OverlayAccountDb) (a : AccountId) (location : Bytes)
    (value : Option Bytes) : OverlayAccountDb :=
  let e := ov.entryOf a
  ov.setEntry a
    { e with storage := fun l => if l = location then some value else e.storage l }

/-- `set_code`: set the account's entry code to `Some code`. -/
def set_code (ov : OverlayAccountDb) (a : AccountId) (code : Bytes) :
    OverlayAccountDb :=
  let e := ov.entryOf a
  ov.setEntry a { e with code := some code }

/-- `set_balance`: set the account's entry balance to `Some balance`. -/
def set_balance (ov : OverlayAccountDb) (a : AccountId) (balance : Balance) :
    OverlayAccountDb :=
  let e := ov.entryOf a
  ov.setEntry a { e with balance := some balance }

/-- `get_storage`:
`local.get(account).and_then(|a| a.storage.get(location)).cloned()
 .unwrap_or_else(|| underlying.get_storage(account, location))`. -/
def get_storage (ov : OverlayAccountDb) (a : AccountId) (location : Bytes) :
    Option Bytes :=
  ((ov.localMap a).bind (fun e => e.storage location)).getD
    (ov.underlying.get_storage a location)

/-- `get_code`: local entry's code if set, else the underlying value. -/
def get_code (ov : OverlayAccountDb) (a : AccountId) : Bytes :=
  ((ov.localMap a).bind (fun e => e.code)).getD (ov.underlying.get_code a)

/-- `get_balance`: local entry's balance if set, else the underlying
value. -/
def get_balance (ov : OverlayAccountDb) (a : AccountId) : Balance :=
  ((ov.localMap a).bind (fun e => e.balance)).getD (ov.underlying.get_balance a)

end OverlayAccountDb

/-! ## Error kinds (`polkadot/consensus/src/error.rs` via `error_chain`) -/

inductive ErrorKind
  | invalidDutyRosterLength (expected actual : Nat)
  | proposalNotForPolkadot
  | proposalTooLarge (size : Nat)
  | wrongParentHash (expected actual : Hash)
  | timestampInFuture
  | clientError (e : Nat)
  deriving DecidableEq, Repr

/-- `MAX_TRANSACTIONS_SIZE = 4 * 1024 * 1024` — block size limit. -/
def MAX_TRANSACTIONS_SIZE : Nat := 4 * 1024 * 1024

/-! ## Proposal evaluation (`evaluate_proposal`)

A well-formed (successfully re-decoded) Polkadot block is modelled by its
parent hash, timestamp, and the encoded forms of its extrinsics; the sum
of encoded extrinsic sizes is the fold the source computes.  The delegated
`client.evaluate_block` call is modelled by its outcome, an
`Except Nat Unit` supplied as an argument. -/

structure PolkadotBlockModel where
  parent_hash : Hash
  timestamp : Nat
  extrinsics : List Bytes

def transactionsSize (p : PolkadotBlockModel) : Nat :=
  p.extrinsics.foldl (fun a tx => a + tx.length) 0

/-- `evaluate_proposal` on an already re-decoded proposal: check the
summed extrinsic size against `MAX_TRANSACTIONS_SIZE`, then the parent
hash, then the timestamp against `now + MAX_TIMESTAMP_DRIFT` (4 s), then
delegate to `client.evaluate_block`. -/
def evaluate_proposal (proposal : PolkadotBlockModel)
    (clientResult : Except Nat Unit) (now : Nat) (parent_hash : Hash) :
    Except ErrorKind Bool :=
  let MAX_TIMESTAMP_DRIFT : Nat := 4
  let transactions_size := transactionsSize proposal
  if transactions_size > MAX_TRANSACTIONS_SIZE then
    .error (.proposalTooLarge transactions_size)
  else if proposal.parent_hash ≠ parent_hash then
    .error (.wrongParentHash parent_hash proposal.parent_hash)
  else if proposal.timestamp > now + MAX_TIMESTAMP_DRIFT then
    .error .timestampInFuture
  else
    match clientResult with
    | .ok _ => .ok true
    | .error e => .error (.clientError e)

/-! ## Transaction inclusion loop (`CreateProposal::propose`)

The loop over `pool.pending(..)` is modelled by structural recursion over
the pending snapshot, carrying the `pending_size` accumulator.  The block
builder's `push_extrinsic` is modelled by its outcome, a boolean-valued
oracle on the transaction.  The result is the triple of included
transactions, culled (`unqueue_invalid`) hashes in encounter order, and
the unexamined suffix left when the loop `break`s. -/

structure PendingTx where
  encoded_size : Nat
  txHash : Nat
  deriving DecidableEq, Repr

def proposeLoop (push : PendingTx → Bool) :
    List PendingTx → Nat → List PendingTx × List Nat × List PendingTx
  | [], _ => ([], [], [])
  | p :: rest, pending_size =>
    if p.encoded_size > MAX_TRANSACTIONS_SIZE then
      -- skip and cull transactions which are too large
      let r := proposeLoop push rest pending_size
      (r.1, p.txHash :: r.2.1, r.2.2)
    else if pending_size + p.encoded_size ≥ MAX_TRANSACTIONS_SIZE then
      -- `break`: the rest of the snapshot is left unexamined
      ([], [], p :: rest)
    else if push p then
      let r := proposeLoop push rest (pending_size + p.encoded_size)
      (p :: r.1, r.2.1, r.2.2)
    else
      -- push_extrinsic error: cull
      let r := proposeLoop push rest pending_size
      (r.1, p.txHash :: r.2.1, r.2.2)

/-- The inclusion pass as run by `propose`, starting from
`pending_size = 0`. -/
def proposePass (push : PendingTx → Bool) (pending : List PendingTx) :
    List PendingTx × List Nat × List PendingTx :=
  proposeLoop push pending 0

def sumSizes (l : List PendingTx) : Nat :=
  (l.map PendingTx.encoded_size).sum

/-! ## Duty roster and group-info derivation (`make_group_info`) -/

/-- `polkadot_primitives::parachain::Chain`: a duty assignment. -/
inductive Chain
  | relay
  | parachain (id : ParaId)
  deriving DecidableEq, Repr

/-- `DutyRoster`: per-authority validator and guarantor assignments. -/
structure DutyRoster where
  validator_duty : List Chain
  guarantor_duty : List Chain
  deriving DecidableEq, Repr

/-- `GroupInfo` for one parachain group.  The `HashSet`s are modelled as
`Finset`s. -/
structure GroupInfo where
  validity_guarantors : Finset AuthorityId
  availability_guarantors : Finset AuthorityId
  needed_validity : Nat
  needed_availability : Nat
  deriving DecidableEq

/-- `GroupInfo::default()`. -/
instance : Inhabited GroupInfo := ⟨⟨∅, ∅, 0, 0⟩⟩

/-- The `HashMap<ParaId, GroupInfo>` under construction, modelled as a
function to `Option GroupInfo`. -/
abbrev GroupMap := ParaId → Option GroupInfo

/-- `map.entry(id).or_insert_with(GroupInfo::default).validity_guarantors
.insert(authority)`. -/
def insertValidity (m : GroupMap) (id : ParaId) (a : AuthorityId) : GroupMap :=
  fun p =>
    if p = id then
      let g := (m id).getD default
      some { g with validity_guarantors := insert a g.validity_guarantors }
    else m p

/-- `map.entry(id).or_insert_with(GroupInfo::default)
.availability_guarantors.insert(authority)`. -/
def insertAvailability (m : GroupMap) (id : ParaId) (a : AuthorityId) : GroupMap :=
  fun p =>
    if p = id then
      let g := (m id).getD default
      some { g with availability_guarantors := insert a g.availability_guarantors }
    else m p

/-- One step of the population loop of `make_group_info`: handle the
validator duty (`Relay` does nothing, `Parachain` inserts into the
validity set), then the guarantor duty likewise for the availability
set. -/
def populateStep (m : GroupMap) : (AuthorityId × Chain) × Chain → GroupMap
  | ((_auth, .relay), .relay) => m
  | ((auth, .relay), .parachain id) => insertAvailability m id auth
  | ((auth, .parachain idv), .relay) => insertValidity m idv auth
  | ((auth, .parachain idv), .parachain id) =>
      insertAvailability (insertValidity m idv auth) id auth

/-- The population loop of `make_group_info` over
`authorities.iter().zip(&roster.validator_duty).zip(&roster.guarantor_duty)`. -/
def populateGroups (authorities : List AuthorityId) (vd ad : List Chain) : GroupMap :=
  ((authorities.zip vd).zip ad).foldl populateStep (fun _ => none)

/-- `make_group_info`: length-check both duty arrays, populate the group
map, then set each live group's thresholds to `n / 2 + n % 2`. -/
def make_group_info (roster : DutyRoster) (authorities : List AuthorityId) :
    Except ErrorKind GroupMap :=
  if roster.validator_duty.length ≠ authorities.length then
    .error (.invalidDutyRosterLength authorities.length roster.validator_duty.length)
  else if roster.guarantor_duty.length ≠ authorities.length then
    .error (.invalidDutyRosterLength authorities.length roster.guarantor_duty.length)
  else
    let m := populateGroups authorities roster.validator_duty roster.guarantor_duty
    .ok (fun p => (m p).map (fun g =>
      { g with
        needed_validity :=
          g.validity_guarantors.card / 2 + g.validity_guarantors.card % 2,
        needed_availability :=
          g.availability_guarantors.card / 2 + g.availability_guarantors.card % 2 }))

/-- Validity-guarantor set recorded for a group, `∅` for absent groups. -/
def validityOf (m : GroupMap) (p : ParaId) : Finset AuthorityId :=
  ((m p).getD default).validity_guarantors

/-- Availability-guarantor set recorded for a group, `∅` for absent
groups. -/
def availabilityOf (m : GroupMap) (p : ParaId) : Finset AuthorityId :=
  ((m p).getD default).availability_guarantors

/-- Projection of a `make_group_info` result for evaluating at concrete
inputs; an error maps to the empty group map. -/
def okMap (e : Except ErrorKind GroupMap) : GroupMap :=
  match e with
  | .ok m => m
  | .error _ => fun _ => none

/-- Seed scenario S2's duty roster: `validator_duty = [Relay,
Parachain(1), Parachain(1), Parachain(2)]`, `guarantor_duty =
[Parachain(1), Relay, Parachain(2), Parachain(2)]`. -/
def rosterS2 : DutyRoster :=
  ⟨[Chain.relay, Chain.parachain 1, Chain.parachain 1, Chain.parachain 2],
   [Chain.parachain 1, Chain.relay, Chain.parachain 2, Chain.parachain 2]⟩

/-! ## Statement signing (`sign_table_statement`)

The ed25519 primitives are external to the core ("serialization of
primitive types and signature primitives" are out of the spec's scope),
so signatures are modelled ideally: a signature is the pair of the
signer's public key and the signed message, and verification checks
both.  An `ed25519::Pair` is identified with its public key
(`key.public().0`). -/

/-- Four-case statement tagged-union (`table::Statement` /
`polkadot_primitives::parachain::Statement`). -/
inductive Statement
  | candidate (r : CandidateReceipt)
  | valid (h : Hash)
  | invalid (h : Hash)
  | available (h : Hash)
  deriving DecidableEq, Repr

/-- Modelled from the spec: the wire encoding of the raw statement
tagged-union (`raw.encode()` of `polkadot_primitives`), a tag byte
followed by the payload. -/
def encodeStatement : Statement → List Nat
  | .candidate r => 1 :: r.group :: [r.payload]
  | .valid h => 2 :: [h]
  | .invalid h => 3 :: [h]
  | .available h => 4 :: [h]

/-- Modelled from the spec: an ideal (EUF-secure) detached signature
standing in for ed25519. -/
structure Signature where
  signer : AuthorityId
  message : List Nat
  deriving DecidableEq, Repr

/-- `key.sign(msg)` of the ideal scheme. -/
def sign (key : AuthorityId) (msg : List Nat) : Signature := ⟨key, msg⟩

/-- Detached-signature verification of the ideal scheme. -/
def verifySignature (sig : Signature) (msg : List Nat) (pubkey : AuthorityId) :
    Bool :=
  decide (sig = Signature.mk pubkey msg)

/-- `sign_table_statement`: the actual message signed is the encoded
statement concatenated with the parent hash. -/
def sign_table_statement (statement : Statement) (key : AuthorityId)
    (parent_hash : Hash) : Signature :=
  sign key (encodeStatement statement ++ [parent_hash])

/-! ## Misbehavior reporting (`Proposer::import_misbehavior`)

The BFT layer's misbehavior variants carry round numbers, header hashes
and localized signatures; `import_misbehavior` turns the
`DoublePrepare`/`DoubleCommit` variants into signed `MisbehaviorReport`
extrinsics and skips the other two.  The transaction pool and the client
are modelled by their observable inputs: the last pending pool index
signed by the local key (if any) and the `client.index` outcome. -/

inductive BftMisbehavior
  | proposeOutOfTurn (round : Nat) (h1 h2 : Hash)
  | doublePropose (round : Nat) (h1 h2 : Hash)
  | doublePrepare (round : Nat) (p1 p2 : Hash × Signature)
  | doubleCommit (round : Nat) (p1 p2 : Hash × Signature)
  deriving DecidableEq, Repr

/-- `primitives::bft::MisbehaviorKind` (the two reportable kinds). -/
inductive MisbehaviorKind
  | bftDoublePrepare (round : Nat) (a b : Hash × Signature)
  | bftDoubleCommit (round : Nat) (a b : Hash × Signature)
  deriving DecidableEq, Repr

structure MisbehaviorReport where
  parent_hash : Hash
  parent_number : Nat
  target : AuthorityId
  misbehavior : MisbehaviorKind
  deriving DecidableEq, Repr

/-- `polkadot_runtime::Extrinsic` with
`function = Call::Consensus(ConsensusCall::report_misbehavior(report))`. -/
structure RuntimeExtrinsic where
  signed : AuthorityId
  index : Nat
  report : MisbehaviorReport
  deriving DecidableEq, Repr

/-- Modelled from the spec: the wire encoding of a runtime extrinsic
(`extrinsic.encode()` is external); any faithful flattening works since
only the signed-message relationship is asserted. -/
def encodeSig (s : Signature) : List Nat :=
  s.signer :: s.message.length :: s.message

def encodeKind : MisbehaviorKind → List Nat
  | .bftDoublePrepare r (h1, s1) (h2, s2) =>
      1 :: r :: h1 :: encodeSig s1 ++ h2 :: encodeSig s2
  | .bftDoubleCommit r (h1, s1) (h2, s2) =>
      2 :: r :: h1 :: encodeSig s1 ++ h2 :: encodeSig s2

def encodeExtrinsic (e : RuntimeExtrinsic) : List Nat :=
  e.signed :: e.index :: e.report.parent_hash :: e.report.parent_number ::
    e.report.target :: encodeKind e.report.misbehavior

structure UncheckedExtrinsic where
  extrinsic : RuntimeExtrinsic
  signature : Signature
  deriving DecidableEq, Repr

/-- The extrinsic-emission loop of `import_misbehavior`: walk the
misbehavior list, skipping `ProposeOutOfTurn`/`DoublePropose` (`continue`
— no index consumed), and building a signed `MisbehaviorReport` extrinsic
at `next_index` for each `DoublePrepare`/`DoubleCommit`. -/
def importMisbehaviorLoop (localKey : AuthorityId) (parentHash : Hash)
    (parentNumber : Nat) :
    Nat → List (AuthorityId × BftMisbehavior) → List UncheckedExtrinsic
  | _, [] => []
  | next_index, (target, mis) :: rest =>
    match mis with
    | .proposeOutOfTurn _ _ _ =>
        importMisbehaviorLoop localKey parentHash parentNumber next_index rest
    | .doublePropose _ _ _ =>
        importMisbehaviorLoop localKey parentHash parentNumber next_index rest
    | .doublePrepare round p1 p2 =>
        let report : MisbehaviorReport :=
          ⟨parentHash, parentNumber, target, .bftDoublePrepare round p1 p2⟩
        let extrinsic : RuntimeExtrinsic := ⟨localKey, next_index, report⟩
        ⟨extrinsic, sign localKey (encodeExtrinsic extrinsic)⟩ ::
          importMisbehaviorLoop localKey parentHash parentNumber (next_index + 1) rest
    | .doubleCommit round p1 p2 =>
        let report : MisbehaviorReport :=
          ⟨parentHash, parentNumber, target, .bftDoubleCommit round p1 p2⟩
        let extrinsic : RuntimeExtrinsic := ⟨localKey, next_index, report⟩
        ⟨extrinsic, sign localKey (encodeExtrinsic extrinsic)⟩ ::
          importMisbehaviorLoop localKey parentHash parentNumber (next_index + 1) rest

/-- `Proposer::import_misbehavior`: seed `next_index` from the last
pending pool transaction signed by the local key, falling back to
`client.index(parent_id, local_id)`; on an index error, log and return
with no extrinsics; otherwise run the emission loop from `cur_index + 1`.
Returns the extrinsics imported into the pool. -/
def import_misbehavior (localKey : AuthorityId) (parentHash : Hash)
    (parentNumber : Nat) (lastPendingLocalIndex : Option Nat)
    (clientIndex : Except Nat Nat)
    (misbehavior : List (AuthorityId × BftMisbehavior)) :
    List UncheckedExtrinsic :=
  let cur_index : Except Nat Nat :=
    match lastPendingLocalIndex with
    | some i => .ok i
    | none => clientIndex
  match cur_index with
  | .ok cur =>
      importMisbehaviorLoop localKey parentHash parentNumber (cur + 1) misbehavior
  | .error _ => []

/-- The reportable kind of a BFT misbehavior, `none` for the ignored
variants; written from the claim's words for comparison with
`import_misbehavior`. -/
def reportKind : BftMisbehavior → Option MisbehaviorKind
  | .proposeOutOfTurn _ _ _ => none
  | .doublePropose _ _ _ => none
  | .doublePrepare r a b => some (.bftDoublePrepare r a b)
  | .doubleCommit r a b => some (.bftDoubleCommit r a b)

/-- The signed misbehavior-report extrinsic at a given index, as the
claim describes it. -/
def mkUncheckedExtrinsic (localKey : AuthorityId) (parentHash : Hash)
    (parentNumber : Nat) (idx : Nat) (target : AuthorityId)
    (kind : MisbehaviorKind) : UncheckedExtrinsic :=
  let extrinsic : RuntimeExtrinsic := ⟨localKey, idx, ⟨parentHash, parentNumber, target, kind⟩⟩
  ⟨extrinsic, sign localKey (encodeExtrinsic extrinsic)⟩

/-- The reportable `(target, kind)` pairs of a misbehavior list, in
order. -/
def reportable (ms : List (AuthorityId × BftMisbehavior)) :
    List (AuthorityId × MisbehaviorKind) :=
  ms.filterMap (fun tm => (reportKind tm.2).map (fun k => (tm.1, k)))

/-! ## Statement producer (`StatementProducer` and its `poll`)

The two fetch futures are driven by their environment; one scheduling
step supplies each underlying future's response (not ready, an item, or
an error).  `future::Fuse` semantics: once the inner future has
completed, the fuse drops it and every later poll reports not-ready. -/

abbrev BlockData := Nat
abbrev ExtrinsicData := Nat
abbrev FetchErr := Nat

/-- What an underlying fetch future does when polled once. -/
inductive FetchResponse (α : Type)
  | notReady
  | ready (a : α)
  | fetchErr (e : FetchErr)
  deriving DecidableEq, Repr

/-- `future::Fuse` around a fetch: `used` records that the inner future
already completed (`self.future = None`). -/
structure Fuse where
  used : Bool
  deriving DecidableEq, Repr

/-- Poll a fused future once: a consumed fuse reports not-ready without
touching the inner future; otherwise the inner future's response is
passed through, consuming the fuse on completion or error. -/
def pollFuse {α : Type} (f : Fuse) (resp : FetchResponse α) :
    Fuse × FetchResponse α :=
  if f.used then (f, .notReady)
  else match resp with
    | .notReady => (f, .notReady)
    | .ready a => (⟨true⟩, .ready a)
    | .fetchErr e => (⟨true⟩, .fetchErr e)

/-- `ProducedStatements`: statements and payloads produced about one
candidate. -/
structure ProducedStatements where
  validity : Option Statement
  availability : Option Statement
  block_data : Option BlockData
  extrinsic : Option ExtrinsicData
  deriving DecidableEq, Repr

instance : Inhabited ProducedStatements := ⟨⟨none, none, none, none⟩⟩

/-- `StatementProducer`: optional armed fetches, the internal produced
buffer, and the candidate digest. -/
structure StatementProducer where
  fetch_block_data : Option Fuse
  fetch_extrinsic : Option Fuse
  produced_statements : ProducedStatements
  candidate_digest : Option Hash
  deriving DecidableEq, Repr

/-- `Default::default()` for the producer: nothing armed, empty buffer,
no digest. -/
instance : Inhabited StatementProducer := ⟨⟨none, none, default, none⟩⟩

/-- Result of one `poll`: `Ok(Async::Ready(_))`, `Ok(Async::NotReady)`,
or `Err(_)`. -/
inductive PollResult
  | ready (r : ProducedStatements)
  | notReady
  | fetchErr (e : FetchErr)
  deriving DecidableEq, Repr

/-- `StatementProducer::poll`: with no candidate digest, immediately
yield (and reset) the produced buffer.  Otherwise poll each armed fetch
exactly once, recording payloads, propagating the first error, and
clearing `done` on a not-ready fetch; when done, take the buffer,
synthesize `Available(digest)` if both payloads are present, and yield
it. -/
def StatementProducer.poll (p : StatementProducer)
    (rb : FetchResponse BlockData) (re : FetchResponse ExtrinsicData) :
    StatementProducer × PollResult :=
  match p.candidate_digest with
  | none =>
    ({ p with produced_statements := default }, .ready p.produced_statements)
  | some candidate_digest =>
    let s1 : StatementProducer × Option FetchErr × Bool :=
      match p.fetch_block_data with
      | none => (p, none, true)
      | some fuse =>
        let fr := pollFuse fuse rb
        let p1 := { p with fetch_block_data := some fr.1 }
        match fr.2 with
        | .ready bd =>
            ({ p1 with produced_statements :=
                { p1.produced_statements with block_data := some bd } },
             none, true)
        | .notReady => (p1, none, false)
        | .fetchErr e => (p1, some e, true)
    match s1.2.1 with
    | some e => (s1.1, .fetchErr e)
    | none =>
      let s2 : StatementProducer × Option FetchErr × Bool :=
        match s1.1.fetch_extrinsic with
        | none => (s1.1, none, true)
        | some fuse =>
          let fr := pollFuse fuse re
          let p2 := { s1.1 with fetch_extrinsic := some fr.1 }
          match fr.2 with
          | .ready ex =>
              ({ p2 with produced_statements :=
                  { p2.produced_statements with extrinsic := some ex } },
               none, true)
          | .notReady => (p2, none, false)
          | .fetchErr e => (p2, some e, true)
      match s2.2.1 with
      | some e => (s2.1, .fetchErr e)
      | none =>
        if s1.2.2 && s2.2.2 then
          let produced := s2.1.produced_statements
          let p3 := { s2.1 with produced_statements := default }
          let produced :=
            if produced.block_data.isSome && produced.extrinsic.isSome then
              { produced with
                availability := some (Statement.available candidate_digest) }
            else produced
          (p3, .ready produced)
        else (s2.1, .notReady)

/-! ## Contract direct account database (`DirectAccountDb::commit`) -/

/-- `balances::UpdateBalanceOutcome`. -/
inductive UpdateBalanceOutcome
  | accountKilled
  | updated
  deriving DecidableEq, Repr

/-- The on-chain state the direct database reads and writes: free
balances, `CodeOf` and `StorageOf`. -/
structure GlobalState where
  freeBalance : AccountId → Balance
  codeOf : AccountId → Bytes
  storageOf : AccountId → Bytes → Option Bytes

/-- Modelled from the spec: `balances::set_free_balance_creating` lives
in the external `balances` module.  Setting a balance below the
existential deposit kills the account — its balance is cleared and the
`OnFreeBalanceZero` callback removes the account's `CodeOf` and
`StorageOf` entries (per the comment in `DirectAccountDb::commit`);
otherwise the balance is simply written. -/
def set_free_balance_creating (ed : Balance) (st : GlobalState)
    (a : AccountId) (b : Balance) : GlobalState × UpdateBalanceOutcome :=
  if b < ed then
    ({ freeBalance := fun x => if x = a then 0 else st.freeBalance x,
       codeOf := fun x => if x = a then [] else st.codeOf x,
       storageOf := fun x k => if x = a then none else st.storageOf x k },
     .accountKilled)
  else
    ({ st with freeBalance := fun x => if x = a then b else st.freeBalance x },
     .updated)

/-- The code and storage writes of one change entry:
`CodeOf::insert` when `code` is set, then `StorageOf::insert`/`remove`
for each storage key of the entry. -/
def applyCodeStorage (st : GlobalState) (a : AccountId) (e : ChangeEntry) :
    GlobalState :=
  let st1 := match e.code with
    | some c => { st with codeOf := fun x => if x = a then c else st.codeOf x }
    | none => st
  { st1 with storageOf := fun x k =>
      if x = a then
        match e.storage k with
        | some v => v
        | none => st1.storageOf x k
      else st1.storageOf x k }

/-- One iteration of `DirectAccountDb::commit`: apply the balance change
first; if the account was killed, `continue` — skipping the entry's code
and storage writes; otherwise apply them. -/
def commitOne (ed : Balance) (st : GlobalState) (x : AccountId × ChangeEntry) :
    GlobalState :=
  match x.2.balance with
  | some b =>
    let r := set_free_balance_creating ed st x.1 b
    match r.2 with
    | .accountKilled => r.1
    | .updated => applyCodeStorage r.1 x.1 x.2
  | none => applyCodeStorage st x.1 x.2

/-- `DirectAccountDb::commit` over the change set (a `BTreeMap`, so keys
are distinct; the model takes the entry list). -/
def commit (ed : Balance) (st : GlobalState)
    (s : List (AccountId × ChangeEntry)) : GlobalState :=
  s.foldl (commitOne ed) st

/-- State agreement at one account: balance, code and all storage keys
coincide. -/
def agreeAt (st st' : GlobalState) (b : AccountId) : Prop :=
  st.freeBalance b = st'.freeBalance b ∧ st.codeOf b = st'.codeOf b ∧
    ∀ k, st.storageOf b k = st'.storageOf b k

/-- A concrete pre-state for evaluating `commit`. -/
def stC9 : GlobalState := ⟨fun _ => 100, fun _ => [1], fun _ _ => some [2]⟩

/-- A change entry whose balance write (5, below an existential deposit
of 10) kills the account. -/
def entryKill : ChangeEntry := ⟨some 5, some [7], fun _ => some (some [9])⟩

/-- A change entry whose balance write keeps the account alive. -/
def entryLive : ChangeEntry := ⟨some 50, some [8], fun _ => none⟩

/-! ## Statement table and shared table (`SharedTableInner::import_statement`)

The statement table itself lives in the external
`polkadot_statement_table` crate; only its callers are in scope here, so
the table is modelled from the spec (§4.D): signature check, then
authorization, then equivocation check, then vote insertion, returning a
`Summary` when the statement was new and actionable.  Statements about
unknown digests are buffered (invariant 4) and counted when the matching
`Candidate` arrives; they yield no summary when buffered. -/

structure SignedStatement where
  statement : Statement
  signature : Signature
  sender : AuthorityId
  deriving DecidableEq, Repr

/-- The per-slot table context: parent hash, signing key (an
`ed25519::Pair` identified with its public key) and the group map. -/
structure TableContext where
  parent_hash : Hash
  key : AuthorityId
  groups : ParaId → Option GroupInfo

/-- `is_member_of`: validity-guarantor membership, false for unknown
groups. -/
def TableContext.is_member_of (c : TableContext) (a : AuthorityId)
    (g : ParaId) : Bool :=
  match c.groups g with
  | some gi => decide (a ∈ gi.validity_guarantors)
  | none => false

/-- `is_availability_guarantor_of`: availability-guarantor membership,
false for unknown groups. -/
def TableContext.is_availability_guarantor_of (c : TableContext)
    (a : AuthorityId) (g : ParaId) : Bool :=
  match c.groups g with
  | some gi => decide (a ∈ gi.availability_guarantors)
  | none => false

/-- A validity vote: explicit `Valid`/`Invalid` or the proposer's
implicit `Valid`. -/
inductive ValidityVote
  | voteValid
  | voteInvalid
  | voteImplicit
  deriving DecidableEq, Repr

/-- Modelled from the spec: `CandidateRecord` of the statement table. -/
structure CandidateRecord where
  receipt : CandidateReceipt
  group_id : ParaId
  proposer : AuthorityId
  validity_votes : AuthorityId → Option ValidityVote
  availability_votes : Finset AuthorityId

/-- Modelled from the spec: table misbehavior kinds (payloads omitted
where they do not affect import results). -/
inductive TableMisbehavior
  | validityDoubleVote (d : Hash)
  | multipleCandidates
  | unauthorizedStatement
  deriving DecidableEq, Repr

/-- Modelled from the spec: the statement table state — full candidate
records by digest, buffered votes on unknown digests, first-seen
misbehavior per author, and each author's (first) proposed digest. -/
structure TableState where
  records : Hash → Option CandidateRecord
  pendingVotes : List (AuthorityId × Statement)
  misbehavior : AuthorityId → Option TableMisbehavior
  proposals : AuthorityId → Option Hash

def emptyTable : TableState :=
  ⟨fun _ => none, [], fun _ => none, fun _ => none⟩

/-- `Summary { candidate, group_id }` describing the candidate a
statement affected. -/
structure Summary where
  candidate : Hash
  group_id : ParaId
  deriving DecidableEq, Repr

/-- Record a misbehavior, keeping only the first per author. -/
def recordMis (st : TableState) (a : AuthorityId) (m : TableMisbehavior) :
    TableState :=
  match st.misbehavior a with
  | some _ => st
  | none =>
    { st with misbehavior := fun x => if x = a then some m else st.misbehavior x }

def setRecord (st : TableState) (d : Hash) (rec : CandidateRecord) :
    TableState :=
  { st with records := fun x => if x = d then some rec else st.records x }

def addValidityVote (rec : CandidateRecord) (a : AuthorityId)
    (v : ValidityVote) : CandidateRecord :=
  { rec with validity_votes := fun x => if x = a then some v else rec.validity_votes x }

/-- The digest a derived statement refers to (`none` for `Candidate`). -/
def statementDigest : Statement → Option Hash
  | .candidate _ => none
  | .valid d => some d
  | .invalid d => some d
  | .available d => some d

/-- Modelled from the spec: inserting one `Valid`/`Invalid`/`Available`
vote into a known candidate record — authorization against the record's
group, equivocation check keeping the first vote, then insertion; a new
countable vote yields the candidate's summary. -/
def applyVote (ctx : TableContext) (st : TableState) (sender : AuthorityId) :
    Statement → TableState × Option Summary
  | .valid d =>
    match st.records d with
    | none => (st, none)
    | some rec =>
      if ctx.is_member_of sender rec.group_id = false then
        (recordMis st sender .unauthorizedStatement, none)
      else
        match rec.validity_votes sender with
        | some .voteInvalid => (recordMis st sender (.validityDoubleVote d), none)
        | some _ => (st, none)
        | none =>
          (setRecord st d (addValidityVote rec sender .voteValid),
           some ⟨d, rec.group_id⟩)
  | .invalid d =>
    match st.records d with
    | none => (st, none)
    | some rec =>
      if ctx.is_member_of sender rec.group_id = false then
        (recordMis st sender .unauthorizedStatement, none)
      else
        match rec.validity_votes sender with
        | some .voteInvalid => (st, none)
        | some _ => (recordMis st sender (.validityDoubleVote d), none)
        | none =>
          (setRecord st d (addValidityVote rec sender .voteInvalid),
           some ⟨d, rec.group_id⟩)
  | .available d =>
    match st.records d with
    | none => (st, none)
    | some rec =>
      if ctx.is_availability_guarantor_of sender rec.group_id = false then
        (recordMis st sender .unauthorizedStatement, none)
      else if sender ∈ rec.availability_votes then (st, none)
      else
        (setRecord st d
          { rec with availability_votes := insert sender rec.availability_votes },
         some ⟨d, rec.group_id⟩)
  | .candidate _ => (st, none)

/-- Modelled from the spec: `Table::import_statement` — verify the
signature against `encode(statement) ‖ parent_hash` (dropped statements
yield no summary), authorize, check equivocation keeping the first
statement, insert the vote, and return a summary when the statement was
new and actionable.  A `Candidate` creates (or extends) the record with
the proposer's implicit `Valid` vote and counts any buffered votes for
its digest. -/
def tableImport (ctx : TableContext) (st : TableState)
    (signed : SignedStatement) : TableState × Option Summary :=
  if verifySignature signed.signature
      (encodeStatement signed.statement ++ [ctx.parent_hash])
      signed.sender = false then
    (st, none)
  else
    match signed.statement with
    | .candidate r =>
      if ctx.is_member_of signed.sender r.group = false then
        (recordMis st signed.sender .unauthorizedStatement, none)
      else
        match st.proposals signed.sender with
        | some d0 =>
          if d0 = r.hash then (st, none)
          else (recordMis st signed.sender .multipleCandidates, none)
        | none =>
          let d := r.hash
          let st1 := { st with proposals := fun x =>
            if x = signed.sender then some d else st.proposals x }
          match st1.records d with
          | some rec =>
            match rec.validity_votes signed.sender with
            | some _ => (st1, none)
            | none =>
              (setRecord st1 d (addValidityVote rec signed.sender .voteImplicit),
               some ⟨d, rec.group_id⟩)
          | none =>
            let rec0 : CandidateRecord :=
              { receipt := r, group_id := r.group, proposer := signed.sender,
                validity_votes := fun x =>
                  if x = signed.sender then some .voteImplicit else none,
                availability_votes := ∅ }
            let st2 := setRecord st1 d rec0
            let buffered := st2.pendingVotes.filter
              (fun p => statementDigest p.2 = some d)
            let keep := st2.pendingVotes.filter
              (fun p => statementDigest p.2 ≠ some d)
            let st3 := { st2 with pendingVotes := keep }
            let st4 := buffered.foldl
              (fun acc p => (applyVote ctx acc p.1 p.2).1) st3
            (st4, some ⟨d, r.group⟩)
    | .valid d =>
      match st.records d with
      | none =>
        ({ st with pendingVotes :=
            st.pendingVotes ++ [(signed.sender, signed.statement)] }, none)
      | some _ => applyVote ctx st signed.sender signed.statement
    | .invalid d =>
      match st.records d with
      | none =>
        ({ st with pendingVotes :=
            st.pendingVotes ++ [(signed.sender, signed.statement)] }, none)
      | some _ => applyVote ctx st signed.sender signed.statement
    | .available d =>
      match st.records d with
      | none =>
        ({ st with pendingVotes :=
            st.pendingVotes ++ [(signed.sender, signed.statement)] }, none)
      | some _ => applyVote ctx st signed.sender signed.statement

/-- `StatementSource`. -/
inductive StatementSource
  | localSource
  | remoteSource (sender : Option AuthorityId)

/-- `SharedTableInner`: the table plus the local node's bookkeeping. -/
structure SharedTableInner where
  table : TableState
  proposed_digest : Option Hash
  checked_validity : Finset Hash
  checked_availability : Finset Hash

/-- `SharedTable::new`'s inner state. -/
def initialInner : SharedTableInner := ⟨emptyTable, none, ∅, ∅⟩

/-- `proposed_digest.as_ref().map_or(true, |d| d != digest)`. -/
def propOk : Option Hash → Hash → Bool
  | some d, digest => decide (d ≠ digest)
  | none, _ => true

/-- `checking_validity`: local validity membership, not the locally
proposed digest, and a fresh `checked_validity` insertion. -/
def checkingValidity (context : TableContext) (inner : SharedTableInner)
    (summary : Summary) : Bool :=
  context.is_member_of context.key summary.group_id &&
  propOk inner.proposed_digest summary.candidate &&
  decide (summary.candidate ∉ inner.checked_validity)

/-- `checking_availability`: local availability guarantorship and a
fresh `checked_availability` insertion. -/
def checkingAvailability (context : TableContext) (inner : SharedTableInner)
    (summary : Summary) : Bool :=
  context.is_availability_guarantor_of context.key summary.group_id &&
  decide (summary.candidate ∉ inner.checked_availability)

/-- Arm the producer's fetches: `router.fetch_block_data` when checking
validity, `router.fetch_extrinsic_data` when checking availability. -/
def armFetches (producer : StatementProducer) (cv ca : Bool) :
    StatementProducer :=
  let p1 :=
    if cv then { producer with fetch_block_data := some ⟨false⟩ }
    else producer
  if ca then { p1 with fetch_extrinsic := some ⟨false⟩ } else p1

/-- `SharedTableInner::import_statement`.  A local statement returns the
blank producer before touching the table.  Otherwise the table import
runs; on a summary the checked sets are updated and, when the candidate
receipt is known, the producer is armed with the due fetches. -/
def SharedTableInner.import_statement (context : TableContext)
    (inner : SharedTableInner) (statement : SignedStatement)
    (statement_source : StatementSource) :
    SharedTableInner × StatementProducer :=
  let producer : StatementProducer := default
  match statement_source with
  | .localSource => (inner, producer)
  | .remoteSource _ =>
    match tableImport context inner.table statement with
    | (t', none) => ({ inner with table := t' }, producer)
    | (t', some summary) =>
      let digest := summary.candidate
      let checking_validity := checkingValidity context inner summary
      let checking_availability := checkingAvailability context inner summary
      let checked_validity' :=
        if context.is_member_of context.key summary.group_id &&
            propOk inner.proposed_digest digest then
          insert digest inner.checked_validity
        else inner.checked_validity
      let checked_availability' :=
        if context.is_availability_guarantor_of context.key summary.group_id then
          insert digest inner.checked_availability
        else inner.checked_availability
      let producer := { producer with candidate_digest := some digest }
      let producer :=
        if checking_validity || checking_availability then
          match t'.records digest with
          | none => producer
          | some _candidate => armFetches producer checking_validity checking_availability
        else producer
      ({ table := t', proposed_digest := inner.proposed_digest,
         checked_validity := checked_validity',
         checked_availability := checked_availability' }, producer)

/-- `SharedTable::sign_and_import`: set `proposed_digest` for a local
`Candidate`, sign the statement against the parent hash, and import it
with a `Local` source (which returns before touching the table). -/
def sign_and_import (context : TableContext) (inner : SharedTableInner)
    (statement : Statement) : SharedTableInner × StatementProducer :=
  let proposed_digest :=
    match statement with
    | .candidate c => some c.hash
    | _ => none
  let signed : SignedStatement :=
    ⟨statement, sign_table_statement statement context.key context.parent_hash,
     context.key⟩
  let inner1 :=
    match proposed_digest with
    | some d => { inner with proposed_digest := some d }
    | none => inner
  SharedTableInner.import_statement context inner1 signed .localSource

/-- An operation on the shared table: a statement import with a source,
or a local sign-and-import. -/
inductive TableOp
  | importOp (s : SignedStatement) (src : StatementSource)
  | signAndImportOp (s : Statement)

def stepOp (ctx : TableContext) (inner : SharedTableInner) :
    TableOp → SharedTableInner × StatementProducer
  | .importOp s src => SharedTableInner.import_statement ctx inner s src
  | .signAndImportOp s => sign_and_import ctx inner s

/-- Run a sequence of operations, collecting the minted producers. -/
def runOps (ctx : TableContext) (inner : SharedTableInner) :
    List TableOp → SharedTableInner × List StatementProducer
  | [] => (inner, [])
  | op :: rest =>
    let r1 := stepOp ctx inner op
    let r2 := runOps ctx r1.1 rest
    (r2.1, r1.2 :: r2.2)

/-- Whether a producer was armed with a block-data fetch for digest `d`. -/
def armsBlockFetch (pr : StatementProducer) (d : Hash) : Bool :=
  pr.fetch_block_data.isSome && decide (pr.candidate_digest = some d)

/-- Whether a producer was armed with an extrinsic-data fetch for digest
`d`. -/
def armsExtrinsicFetch (pr : StatementProducer) (d : Hash) : Bool :=
  pr.fetch_extrinsic.isSome && decide (pr.candidate_digest = some d)

def countBlockArms (prods : List StatementProducer) (d : Hash) : Nat :=
  (prods.filter (armsBlockFetch · d)).length

def countExtrinsicArms (prods : List StatementProducer) (d : Hash) : Nat :=
  (prods.filter (armsExtrinsicFetch · d)).length

/-- A concrete context for evaluating the shared table: parent hash 99,
local key 2, one group (0) with validity guarantors `{1, 2}` and
availability guarantor `{2}`. -/
def ctxC1 : TableContext :=
  ⟨99, 2, fun p => if p = 0 then some ⟨{1, 2}, {2}, 1, 1⟩ else none⟩

/-- A remote `Candidate` statement for group 0 signed by authority 1
against parent hash 99. -/
def signedC1 : SignedStatement :=
  ⟨.candidate ⟨0, 5⟩,
   sign 1 (encodeStatement (.candidate ⟨0, 5⟩) ++ [99]), 1⟩

def opC1 : TableOp := .importOp signedC1 (.remoteSource (some 1))

theorem InherentsPool.add_foldl_data {T : Type} (xs : List T)
    (p : InherentsPool T) :
    (xs.foldl InherentsPool.add p).data = p.data ++ xs := by
  induction xs generalizing p with
  | nil => simp
  | cons x xs ih => simp [InherentsPool.add, ih]

theorem proposeLoop_spec (push : PendingTx → Bool) (l : List PendingTx)
    (s : Nat) :
    (s < MAX_TRANSACTIONS_SIZE →
      s + sumSizes (proposeLoop push l s).1 < MAX_TRANSACTIONS_SIZE) ∧
    (∀ p ∈ l, p.encoded_size > MAX_TRANSACTIONS_SIZE →
      p ∉ (proposeLoop push l s).1 ∧
      (p ∈ (proposeLoop push l s).2.2 ∨ p.txHash ∈ (proposeLoop push l s).2.1)) ∧
    (∀ r ∈ (proposeLoop push l s).2.2.head?,
      r.encoded_size ≤ MAX_TRANSACTIONS_SIZE ∧
      s + sumSizes (proposeLoop push l s).1 + r.encoded_size ≥ MAX_TRANSACTIONS_SIZE) ∧
    (∀ h ∈ (proposeLoop push l s).2.1, ∃ p ∈ l, p.txHash = h ∧
      (p.encoded_size > MAX_TRANSACTIONS_SIZE ∨ push p = false)) ∧
    (∀ p ∈ l, p ∉ (proposeLoop push l s).1 → p ∉ (proposeLoop push l s).2.2 →
      p.txHash ∈ (proposeLoop push l s).2.1) ∧
    (∀ p ∈ (proposeLoop push l s).1,
      push p = true ∧ p.encoded_size ≤ MAX_TRANSACTIONS_SIZE ∧ p ∈ l) := by
  induction l generalizing s with
  | nil =>
    refine ⟨?_, ?_, ?_, ?_, ?_, ?_⟩ <;> simp [proposeLoop, sumSizes]
  | cons p rest ih =>
    by_cases hbig : p.encoded_size > MAX_TRANSACTIONS_SIZE
    · have hl : proposeLoop push (p :: rest) s =
          ((proposeLoop push rest s).1,
            p.txHash :: (proposeLoop push rest s).2.1,
            (proposeLoop push rest s).2.2) := by
        simp [proposeLoop, hbig]
      obtain ⟨i1, i2, i3, i4, i5, i6⟩ := ih s
      refine ⟨?_, ?_, ?_, ?_, ?_, ?_⟩
      · intro hs; rw [hl]; exact i1 hs
      · intro q hq hqbig
        rw [hl]
        rcases List.mem_cons.mp hq with hq | hq
        · subst hq
          refine ⟨fun hmem => ?_, ?_⟩
          · exact absurd ((i6 q hmem).2.1) (by omega)
          · right; exact List.mem_cons_self _ _
        · obtain ⟨ha, hb⟩ := i2 q hq hqbig
          exact ⟨ha, hb.elim .inl (fun h => .inr (List.mem_cons_of_mem _ h))⟩
      · intro r hr; rw [hl]; rw [hl] at hr; exact i3 r hr
      · intro h hh
        rw [hl] at hh
        rcases List.mem_cons.mp hh with hh | hh
        · exact ⟨p, List.mem_cons_self _ _, hh.symm, .inl hbig⟩
        · obtain ⟨q, hq, hq2⟩ := i4 h hh
          exact ⟨q, List.mem_cons_of_mem _ hq, hq2⟩
      · intro q hq hq1 hq2
        rw [hl] at hq1 hq2 ⊢
        rcases List.mem_cons.mp hq with hq | hq
        · subst hq; exact List.mem_cons_self _ _
        · exact List.mem_cons_of_mem _ (i5 q hq hq1 hq2)
      · intro q hq; rw [hl] at hq
        obtain ⟨ha, hb, hc⟩ := i6 q hq
        exact ⟨ha, hb, List.mem_cons_of_mem _ hc⟩
    · by_cases hbreak : s + p.encoded_size ≥ MAX_TRANSACTIONS_SIZE
      · have hl : proposeLoop push (p :: rest) s = ([], [], p :: rest) := by
          simp [proposeLoop, hbig, hbreak]
        refine ⟨?_, ?_, ?_, ?_, ?_, ?_⟩
        · intro hs; rw [hl]; simpa [sumSizes] using hs
        · intro q hq hqbig; rw [hl]
          exact ⟨by simp, .inl hq⟩
        · intro r hr; rw [hl] at hr ⊢
          simp only [List.head?] at hr
          simp only [Option.mem_def, Option.some.injEq] at hr
          subst hr
          constructor
          · omega
          · simpa [sumSizes] using hbreak
        · intro h hh; rw [hl] at hh; simp at hh
        · intro q hq hq1 hq2; rw [hl] at hq2; exact absurd hq hq2
        · intro q hq; rw [hl] at hq; simp at hq
      · by_cases hpush : push p = true
        · have hl : proposeLoop push (p :: rest) s =
              (p :: (proposeLoop push rest (s + p.encoded_size)).1,
                (proposeLoop push rest (s + p.encoded_size)).2.1,
                (proposeLoop push rest (s + p.encoded_size)).2.2) := by
            simp [proposeLoop, hbig, hbreak, hpush]
          obtain ⟨i1, i2, i3, i4, i5, i6⟩ := ih (s + p.encoded_size)
          refine ⟨?_, ?_, ?_, ?_, ?_, ?_⟩
          · intro _
            rw [hl]
            have := i1 (by omega)
            simp only [sumSizes, List.map_cons, List.sum_cons]
            simp only [sumSizes] at this
            omega
          · intro q hq hqbig
            rw [hl]
            rcases List.mem_cons.mp hq with hq | hq
            · subst hq; omega
            · obtain ⟨ha, hb⟩ := i2 q hq hqbig
              refine ⟨fun hmem => ?_, hb⟩
              rcases List.mem_cons.mp hmem with hmem | hmem
              · subst hmem; omega
              · exact ha hmem
          · intro r hr
            rw [hl] at hr ⊢
            have := i3 r hr
            simp only [sumSizes, List.map_cons, List.sum_cons]
            simp only [sumSizes] at this
            omega
          · intro h hh
            rw [hl] at hh
            obtain ⟨q, hq, hq2⟩ := i4 h hh
            exact ⟨q, List.mem_cons_of_mem _ hq, hq2⟩
          · intro q hq hq1 hq2
            rw [hl] at hq1 hq2 ⊢
            rcases List.mem_cons.mp hq with hq | hq
            · subst hq
              exact absurd (List.mem_cons_self _ _) hq1
            · exact i5 q hq (fun hm => hq1 (List.mem_cons_of_mem _ hm)) hq2
          · intro q hq
            rw [hl] at hq
            rcases List.mem_cons.mp hq with hq | hq
            · subst hq
              exact ⟨hpush, by omega, List.mem_cons_self _ _⟩
            · obtain ⟨ha, hb, hc⟩ := i6 q hq
              exact ⟨ha, hb, List.mem_cons_of_mem _ hc⟩
        · have hl : proposeLoop push (p :: rest) s =
              ((proposeLoop push rest s).1,
                p.txHash :: (proposeLoop push rest s).2.1,
                (proposeLoop push rest s).2.2) := by
            simp [proposeLoop, hbig, hbreak, hpush]
          obtain ⟨i1, i2, i3, i4, i5, i6⟩ := ih s
          refine ⟨?_, ?_, ?_, ?_, ?_, ?_⟩
          · intro hs; rw [hl]; exact i1 hs
          · intro q hq hqbig
            rw [hl]
            rcases List.mem_cons.mp hq with hq | hq
            · subst hq; omega
            · obtain ⟨ha, hb⟩ := i2 q hq hqbig
              exact ⟨ha, hb.elim .inl (fun h => .inr (List.mem_cons_of_mem _ h))⟩
          · intro r hr; rw [hl] at hr ⊢; exact i3 r hr
          · intro h hh
            rw [hl] at hh
            rcases List.mem_cons.mp hh with hh | hh
            · refine ⟨p, List.mem_cons_self _ _, hh.symm, .inr ?_⟩
              simpa using hpush
            · obtain ⟨q, hq, hq2⟩ := i4 h hh
              exact ⟨q, List.mem_cons_of_mem _ hq, hq2⟩
          · intro q hq hq1 hq2
            rw [hl] at hq1 hq2 ⊢
            rcases List.mem_cons.mp hq with hq | hq
            · subst hq; exact List.mem_cons_self _ _
            · exact List.mem_cons_of_mem _ (i5 q hq hq1 hq2)
          · intro q hq; rw [hl] at hq
            obtain ⟨ha, hb, hc⟩ := i6 q hq
            exact ⟨ha, hb, List.mem_cons_of_mem _ hc⟩

end Spec2Proof

namespace Spec2Proof

/-- C10: after `set_storage` the same location reads back the written
value, after `set_code`/`set_balance` the getters return the written
values, and where no local change is recorded each getter returns the
underlying database's value. -/
theorem C10_overlay_get_set (ov : OverlayAccountDb) (a : AccountId)
    (location : Bytes) (value : Option Bytes) (code : Bytes) (balance : Balance) :
    (ov.set_storage a location value).get_storage a location = value ∧
    (ov.set_code a code).get_code a = code ∧
    (ov.set_balance a balance).get_balance a = balance ∧
    (((ov.localMap a).bind (fun e => e.storage location)) = none →
      ov.get_storage a location = ov.underlying.get_storage a location) ∧
    (((ov.localMap a).bind (fun e => e.code)) = none →
      ov.get_code a = ov.underlying.get_code a) ∧
    (((ov.localMap a).bind (fun e => e.balance)) = none →
      ov.get_balance a = ov.underlying.get_balance a) := by
  refine ⟨?_, ?_, ?_, ?_, ?_, ?_⟩
  · simp [OverlayAccountDb.set_storage, OverlayAccountDb.get_storage,
      OverlayAccountDb.setEntry, OverlayAccountDb.entryOf]
  · simp [OverlayAccountDb.set_code, OverlayAccountDb.get_code,
      OverlayAccountDb.setEntry, OverlayAccountDb.entryOf]
  · simp [OverlayAccountDb.set_balance, OverlayAccountDb.get_balance,
      OverlayAccountDb.setEntry, OverlayAccountDb.entryOf]
  · intro h; simp [OverlayAccountDb.get_storage, h]
  · intro h; simp [OverlayAccountDb.get_code, h]
  · intro h; simp [OverlayAccountDb.get_balance, h]

/-- Witness for C10 at a concrete overlay, account and location. -/
theorem C10_overlay_get_set_witness :
    ((OverlayAccountDb.new ⟨fun _ _ => none, fun _ => [7], fun _ => 5⟩).set_storage
        1 [2] (some [3])).get_storage 1 [2] = some [3] ∧
    (OverlayAccountDb.new ⟨fun _ _ => none, fun _ => [7], fun _ => 5⟩).get_balance 1 = 5 := by
  have h := C10_overlay_get_set
    (OverlayAccountDb.new ⟨fun _ _ => none, fun _ => [7], fun _ => 5⟩)
    1 [2] (some [3]) [9] 4
  exact ⟨h.1, h.2.2.2.2.2 rfl⟩

/-- C3: `evaluate_proposal` reports `ProposalTooLarge(size)` exactly when
the summed encoded extrinsic size exceeds 4194304 bytes (and carries that
sum), reports `WrongParentHash(expected, actual)` exactly when the size
check passes and the proposal's parent hash differs from the expected
one, reports `TimestampInFuture` exactly when the earlier checks pass and
the timestamp exceeds `now + 4` (past timestamps are never rejected), and
otherwise delegates to `client.evaluate_block`, returning `true` on its
success. -/
theorem C3_evaluate_proposal_checks (p : PolkadotBlockModel)
    (client : Except Nat Unit) (now : Nat) (ph : Hash) :
    ((∃ n, evaluate_proposal p client now ph = .error (.proposalTooLarge n)) ↔
      transactionsSize p > 4194304) ∧
    (∀ n, evaluate_proposal p client now ph = .error (.proposalTooLarge n) →
      n = transactionsSize p) ∧
    ((∃ e a, evaluate_proposal p client now ph = .error (.wrongParentHash e a)) ↔
      (transactionsSize p ≤ 4194304 ∧ p.parent_hash ≠ ph)) ∧
    (∀ e a, evaluate_proposal p client now ph = .error (.wrongParentHash e a) →
      e = ph ∧ a = p.parent_hash) ∧
    (evaluate_proposal p client now ph = .error .timestampInFuture ↔
      (transactionsSize p ≤ 4194304 ∧ p.parent_hash = ph ∧ p.timestamp > now + 4)) ∧
    (p.timestamp ≤ now →
      evaluate_proposal p client now ph ≠ .error .timestampInFuture) ∧
    (transactionsSize p ≤ 4194304 → p.parent_hash = ph → p.timestamp ≤ now + 4 →
      evaluate_proposal p client now ph =
        match client with
        | .ok _ => .ok true
        | .error e => .error (.clientError e)) := by
  have hmax : MAX_TRANSACTIONS_SIZE = 4194304 := by norm_num [MAX_TRANSACTIONS_SIZE]
  simp only [evaluate_proposal, hmax]
  split_ifs with h1 h2 h3
  · refine ⟨⟨fun _ => h1, fun _ => ⟨_, rfl⟩⟩, ?_, ?_, ?_, ?_, ?_, ?_⟩
    · intro n hn; exact (by simpa using hn : _ = _).symm
    · simp; omega
    · intro e a he; simp at he
    · simp; omega
    · intro _ he; simp at he
    · intro hs; omega
  · refine ⟨⟨fun ⟨n, hn⟩ => by simp at hn, fun h => absurd h h1⟩, ?_, ?_, ?_, ?_, ?_, ?_⟩
    · intro n hn; simp at hn
    · refine ⟨fun _ => ⟨by omega, h2⟩, fun _ => ⟨_, _, rfl⟩⟩
    · intro e a he
      simp only [Except.error.injEq, ErrorKind.wrongParentHash.injEq] at he
      exact ⟨he.1.symm, he.2.symm⟩
    · simp [h2]
    · intro _ he; simp at he
    · intro _ hph; exact absurd hph h2
  · refine ⟨⟨fun ⟨n, hn⟩ => by simp at hn, fun h => absurd h h1⟩, ?_, ?_, ?_, ?_, ?_, ?_⟩
    · intro n hn; simp at hn
    · refine ⟨fun ⟨e, a, he⟩ => by simp at he, fun ⟨_, hne⟩ => absurd h2 (by simpa using hne)⟩
    · intro e a he; simp at he
    · refine ⟨fun _ => ⟨by omega, by simpa using h2, h3⟩, fun _ => rfl⟩
    · intro hs; omega
    · intro _ _ hts; omega
  · cases client with
    | ok u =>
      refine ⟨iff_of_false (fun ⟨n, hn⟩ => by simp at hn) (fun h => absurd h h1),
        ?_, iff_of_false (fun ⟨e, a, he⟩ => by simp at he)
          (fun ⟨_, hne⟩ => hne (not_not.mp h2)),
        ?_, iff_of_false (by simp) (fun ⟨_, _, hts⟩ => absurd hts h3), ?_, ?_⟩
      · intro n hn; simp at hn
      · intro e a he; simp at he
      · intro _ he; simp at he
      · intro _ _ _; rfl
    | error e =>
      refine ⟨iff_of_false (fun ⟨n, hn⟩ => by simp at hn) (fun h => absurd h h1),
        ?_, iff_of_false (fun ⟨e', a, he⟩ => by simp at he)
          (fun ⟨_, hne⟩ => hne (not_not.mp h2)),
        ?_, iff_of_false (by simp) (fun ⟨_, _, hts⟩ => absurd hts h3), ?_, ?_⟩
      · intro n hn; simp at hn
      · intro e' a he; simp at he
      · intro _ he; simp at he
      · intro _ _ _; rfl

/-- Witness for C3: the seed scenarios — a 4 MiB + 1 byte proposal gives
`ProposalTooLarge(4194305)`; timestamp 105 at `now = 100` is rejected,
104 proceeds, and a past timestamp is never rejected as in the future. -/
theorem C3_evaluate_proposal_checks_witness :
    evaluate_proposal ⟨5, 104, []⟩ (.ok ()) 100 5 = .ok true ∧
    evaluate_proposal ⟨5, 105, []⟩ (.ok ()) 100 5 = .error .timestampInFuture ∧
    evaluate_proposal ⟨5, 50, []⟩ (.ok ()) 100 5 ≠ .error .timestampInFuture ∧
    evaluate_proposal ⟨5, 100, [List.replicate 4194305 0]⟩ (.ok ()) 100 5 =
      .error (.proposalTooLarge 4194305) := by
  have hsize :
      transactionsSize ⟨5, 100, [List.replicate 4194305 0]⟩ = 4194305 := by
    rw [transactionsSize]
    rw [List.foldl_cons, List.foldl_nil, List.length_replicate]
  refine ⟨?_, ?_, ?_, ?_⟩
  · exact (C3_evaluate_proposal_checks ⟨5, 104, []⟩ (.ok ()) 100 5).2.2.2.2.2.2
      (by norm_num [transactionsSize]) rfl (by norm_num)
  · exact (C3_evaluate_proposal_checks ⟨5, 105, []⟩ (.ok ()) 100 5).2.2.2.2.1.mpr
      ⟨by norm_num [transactionsSize], rfl, by norm_num⟩
  · exact (C3_evaluate_proposal_checks ⟨5, 50, []⟩ (.ok ()) 100 5).2.2.2.2.2.1
      (by norm_num)
  · have h := C3_evaluate_proposal_checks ⟨5, 100, [List.replicate 4194305 0]⟩
      (.ok ()) 100 5
    obtain ⟨n, hn⟩ := h.1.mpr (by rw [hsize]; omega)
    have hns := h.2.1 n hn
    rw [hn, hns, hsize]

/-- C4: in the proposal-baking inclusion loop, every oversized pending
transaction (encoded size above 4194304 bytes) is excluded and — unless
the loop broke before reaching it — culled; the loop stops at a
transaction that would take the cumulative included size to the cap; a
reached transaction rejected by `push_extrinsic` is culled; culled hashes
all come from oversized or rejected transactions; and the sum of encoded
sizes of included transactions never reaches 4194304 bytes. -/
theorem C4_propose_transaction_bounds (push : PendingTx → Bool)
    (pending : List PendingTx) :
    sumSizes (proposePass push pending).1 < 4194304 ∧
    (∀ p ∈ pending, p.encoded_size > 4194304 →
      p ∉ (proposePass push pending).1 ∧
      (p ∈ (proposePass push pending).2.2 ∨
        p.txHash ∈ (proposePass push pending).2.1)) ∧
    (∀ r ∈ (proposePass push pending).2.2.head?,
      sumSizes (proposePass push pending).1 + r.encoded_size ≥ 4194304) ∧
    (∀ p ∈ pending, push p = false → p ∉ (proposePass push pending).2.2 →
      p.txHash ∈ (proposePass push pending).2.1) ∧
    (∀ h ∈ (proposePass push pending).2.1, ∃ p ∈ pending, p.txHash = h ∧
      (p.encoded_size > 4194304 ∨ push p = false)) := by
  have hmax : MAX_TRANSACTIONS_SIZE = 4194304 := by norm_num [MAX_TRANSACTIONS_SIZE]
  simp only [proposePass]
  obtain ⟨i1, i2, i3, i4, i5, i6⟩ := proposeLoop_spec push pending 0
  rw [hmax] at i1 i2 i3 i4
  have hi1 := i1 (by omega)
  refine ⟨by omega, ?_, ?_, ?_, ?_⟩
  · intro p hp hbig
    exact i2 p hp hbig
  · intro r hr
    have := i3 r hr
    omega
  · intro p hp hpush hrem
    refine i5 p hp (fun hinc => ?_) hrem
    have hpt := (i6 p hinc).1
    rw [hpt] at hpush
    exact Bool.noConfusion hpush
  · intro h hh
    exact i4 h hh

/-- Witness for C4: with a two-element snapshot whose first transaction
is one byte over the cap, that transaction is excluded and culled. -/
theorem C4_propose_transaction_bounds_witness :
    PendingTx.mk 4194305 1 ∉ (proposePass (fun _ => true) [⟨4194305, 1⟩, ⟨10, 2⟩]).1 ∧
    (1 : Nat) ∈ (proposePass (fun _ => true) [⟨4194305, 1⟩, ⟨10, 2⟩]).2.1 := by
  have h := C4_propose_transaction_bounds (fun _ => true) [⟨4194305, 1⟩, ⟨10, 2⟩]
  have h2 := h.2.1 ⟨4194305, 1⟩ (by decide) (by decide)
  refine ⟨h2.1, ?_⟩
  rcases h2.2 with hrem | hcull
  · exact absurd hrem (by decide)
  · exact hcull

theorem validityOf_insertAvailability (m : GroupMap) (id : ParaId)
    (b : AuthorityId) (p : ParaId) :
    validityOf (insertAvailability m id b) p = validityOf m p := by
  unfold validityOf insertAvailability
  by_cases h : p = id
  · subst h; simp
  · simp [h]

theorem availabilityOf_insertValidity (m : GroupMap) (id : ParaId)
    (b : AuthorityId) (p : ParaId) :
    availabilityOf (insertValidity m id b) p = availabilityOf m p := by
  unfold availabilityOf insertValidity
  by_cases h : p = id
  · subst h; simp
  · simp [h]

theorem validityOf_insertValidity (m : GroupMap) (id : ParaId)
    (b : AuthorityId) (p : ParaId) :
    validityOf (insertValidity m id b) p =
      if p = id then insert b (validityOf m p) else validityOf m p := by
  unfold validityOf insertValidity
  by_cases h : p = id
  · subst h; simp
  · simp [h]

theorem availabilityOf_insertAvailability (m : GroupMap) (id : ParaId)
    (b : AuthorityId) (p : ParaId) :
    availabilityOf (insertAvailability m id b) p =
      if p = id then insert b (availabilityOf m p) else availabilityOf m p := by
  unfold availabilityOf insertAvailability
  by_cases h : p = id
  · subst h; simp
  · simp [h]

theorem mem_zip_zip {α β γ : Type} {x : α} {y : β} {z : γ}
    {l1 : List α} {l2 : List β} {l3 : List γ}
    (h : ((x, y), z) ∈ (l1.zip l2).zip l3) :
    (x, y) ∈ l1.zip l2 ∧ (x, z) ∈ l1.zip l3 := by
  induction l1 generalizing l2 l3 with
  | nil => simp at h
  | cons a t1 ih =>
    cases l2 with
    | nil => simp at h
    | cons b t2 =>
      cases l3 with
      | nil => simp at h
      | cons c t3 =>
        simp only [List.zip_cons_cons, List.mem_cons] at h ⊢
        rcases h with h | h
        · simp only [Prod.mk.injEq] at h
          obtain ⟨⟨hx, hy⟩, hz⟩ := h
          subst hx; subst hy; subst hz
          exact ⟨.inl rfl, .inl rfl⟩
        · obtain ⟨h1, h2⟩ := ih h
          exact ⟨.inr h1, .inr h2⟩

theorem populate_validity_mem (l : List ((AuthorityId × Chain) × Chain))
    (m0 : GroupMap) (p : ParaId) (a : AuthorityId)
    (h : a ∈ validityOf (l.foldl populateStep m0) p) :
    a ∈ validityOf m0 p ∨ ∃ c, ((a, Chain.parachain p), c) ∈ l := by
  induction l generalizing m0 with
  | nil => exact .inl h
  | cons x t ih =>
    obtain ⟨⟨auth, vd⟩, ad⟩ := x
    rcases ih (populateStep m0 ((auth, vd), ad)) (by simpa using h)
      with h1 | ⟨c, hc⟩
    · cases vd with
      | relay =>
        cases ad with
        | relay => exact .inl (by simpa [populateStep] using h1)
        | parachain id2 =>
          rw [show populateStep m0 ((auth, Chain.relay), Chain.parachain id2) =
              insertAvailability m0 id2 auth from rfl,
            validityOf_insertAvailability] at h1
          exact .inl h1
      | parachain idv =>
        cases ad with
        | relay =>
          rw [show populateStep m0 ((auth, Chain.parachain idv), Chain.relay) =
              insertValidity m0 idv auth from rfl,
            validityOf_insertValidity] at h1
          by_cases hp : p = idv
          · rw [if_pos hp] at h1
            rcases Finset.mem_insert.mp h1 with rfl | h1
            · subst hp
              exact .inr ⟨Chain.relay, List.mem_cons_self _ _⟩
            · exact .inl h1
          · rw [if_neg hp] at h1; exact .inl h1
        | parachain id2 =>
          rw [show populateStep m0 ((auth, Chain.parachain idv), Chain.parachain id2) =
              insertAvailability (insertValidity m0 idv auth) id2 auth from rfl,
            validityOf_insertAvailability, validityOf_insertValidity] at h1
          by_cases hp : p = idv
          · rw [if_pos hp] at h1
            rcases Finset.mem_insert.mp h1 with rfl | h1
            · subst hp
              exact .inr ⟨Chain.parachain id2, List.mem_cons_self _ _⟩
            · exact .inl h1
          · rw [if_neg hp] at h1; exact .inl h1
    · exact .inr ⟨c, List.mem_cons_of_mem _ hc⟩

theorem populate_availability_mem (l : List ((AuthorityId × Chain) × Chain))
    (m0 : GroupMap) (p : ParaId) (a : AuthorityId)
    (h : a ∈ availabilityOf (l.foldl populateStep m0) p) :
    a ∈ availabilityOf m0 p ∨ ∃ v, ((a, v), Chain.parachain p) ∈ l := by
  induction l generalizing m0 with
  | nil => exact .inl h
  | cons x t ih =>
    obtain ⟨⟨auth, vd⟩, ad⟩ := x
    rcases ih (populateStep m0 ((auth, vd), ad)) (by simpa using h)
      with h1 | ⟨v, hv⟩
    · cases vd with
      | relay =>
        cases ad with
        | relay => exact .inl (by simpa [populateStep] using h1)
        | parachain id2 =>
          rw [show populateStep m0 ((auth, Chain.relay), Chain.parachain id2) =
              insertAvailability m0 id2 auth from rfl,
            availabilityOf_insertAvailability] at h1
          by_cases hp : p = id2
          · rw [if_pos hp] at h1
            rcases Finset.mem_insert.mp h1 with rfl | h1
            · subst hp
              exact .inr ⟨Chain.relay, List.mem_cons_self _ _⟩
            · exact .inl h1
          · rw [if_neg hp] at h1; exact .inl h1
      | parachain idv =>
        cases ad with
        | relay =>
          rw [show populateStep m0 ((auth, Chain.parachain idv), Chain.relay) =
              insertValidity m0 idv auth from rfl,
            availabilityOf_insertValidity] at h1
          exact .inl h1
        | parachain id2 =>
          rw [show populateStep m0 ((auth, Chain.parachain idv), Chain.parachain id2) =
              insertAvailability (insertValidity m0 idv auth) id2 auth from rfl,
            availabilityOf_insertAvailability] at h1
          by_cases hp : p = id2
          · rw [if_pos hp] at h1
            rcases Finset.mem_insert.mp h1 with rfl | h1
            · subst hp
              exact .inr ⟨Chain.parachain idv, List.mem_cons_self _ _⟩
            · rw [availabilityOf_insertValidity] at h1
              exact .inl h1
          · rw [if_neg hp, availabilityOf_insertValidity] at h1
            exact .inl h1
    · exact .inr ⟨v, List.mem_cons_of_mem _ hv⟩

/-- C5: `make_group_info` is pure (equal inputs give equal outputs); in
its output every group's `needed_validity` is ⌈|validity_guarantors|/2⌉
and `needed_availability` is ⌈|availability_guarantors|/2⌉; and group
membership arises only from a `Parachain` duty at the member's roster
index, so `Relay` assignments contribute to no group. -/
theorem C5_make_group_info (r r' : DutyRoster) (auths auths' : List AuthorityId) :
    (r = r' → auths = auths' → make_group_info r auths = make_group_info r' auths') ∧
    (∀ m, make_group_info r auths = .ok m → ∀ p g, m p = some g →
      g.needed_validity = (g.validity_guarantors.card + 1) / 2 ∧
      g.needed_availability = (g.availability_guarantors.card + 1) / 2 ∧
      (∀ a ∈ g.validity_guarantors,
        (a, Chain.parachain p) ∈ auths.zip r.validator_duty) ∧
      (∀ a ∈ g.availability_guarantors,
        (a, Chain.parachain p) ∈ auths.zip r.guarantor_duty)) := by
  constructor
  · intro h1 h2; rw [h1, h2]
  · intro m hm p g hg
    unfold make_group_info at hm
    by_cases hl1 : r.validator_duty.length ≠ auths.length
    · rw [if_pos hl1] at hm; exact absurd hm (by simp)
    rw [if_neg hl1] at hm
    by_cases hl2 : r.guarantor_duty.length ≠ auths.length
    · rw [if_pos hl2] at hm; exact absurd hm (by simp)
    rw [if_neg hl2] at hm
    have hm' := Except.ok.inj hm
    rw [← hm'] at hg
    simp only [Option.map_eq_some'] at hg
    obtain ⟨g0, hg0, hgdef⟩ := hg
    subst hgdef
    refine ⟨by simp; omega, by simp; omega, ?_, ?_⟩
    · intro a ha
      simp only at ha
      have hmem : a ∈ validityOf
          (populateGroups auths r.validator_duty r.guarantor_duty) p := by
        unfold validityOf
        rw [hg0]
        exact ha
      rcases populate_validity_mem _ _ _ _ hmem with h0 | ⟨c, hc⟩
      · simp [validityOf, default] at h0
      · exact (mem_zip_zip hc).1
    · intro a ha
      simp only at ha
      have hmem : a ∈ availabilityOf
          (populateGroups auths r.validator_duty r.guarantor_duty) p := by
        unfold availabilityOf
        rw [hg0]
        exact ha
      rcases populate_availability_mem _ _ _ _ hmem with h0 | ⟨v, hv⟩
      · simp [availabilityOf, default] at h0
      · exact (mem_zip_zip hv).2

/-- Witness for C5 at seed scenario S2: group 1 gets validity set `{B,C}`
(= `{1, 2}`), availability set `{A}` (= `{0}`), thresholds 1 and 1, and
the threshold equation of the claim holds there. -/
theorem C5_make_group_info_witness :
    okMap (make_group_info rosterS2 [0, 1, 2, 3]) 1 =
      some ⟨{2, 1}, {0}, 1, 1⟩ ∧
    ∀ g, okMap (make_group_info rosterS2 [0, 1, 2, 3]) 1 = some g →
      g.needed_validity = (g.validity_guarantors.card + 1) / 2 := by
  refine ⟨by decide, ?_⟩
  intro g hg
  cases he : make_group_info rosterS2 [0, 1, 2, 3] with
  | error e =>
    rw [he] at hg
    exact absurd hg (by simp [okMap])
  | ok m =>
    rw [he] at hg
    simp only [okMap] at hg
    exact ((C5_make_group_info rosterS2 rosterS2 [0, 1, 2, 3] [0, 1, 2, 3]).2
      m he 1 g hg).1

/-- C6: the message signed by `sign_table_statement` is exactly the wire
encoding of the statement concatenated with the parent hash; verifying
the produced signature against that message and the signer's public key
succeeds, and against the same statement with a different parent hash
fails. -/
theorem C6_sign_table_statement (st : Statement) (key : AuthorityId)
    (ph ph' : Hash) :
    (sign_table_statement st key ph).message = encodeStatement st ++ [ph] ∧
    verifySignature (sign_table_statement st key ph)
      (encodeStatement st ++ [ph]) key = true ∧
    (ph' ≠ ph →
      verifySignature (sign_table_statement st key ph)
        (encodeStatement st ++ [ph']) key = false) := by
  refine ⟨rfl, by simp [verifySignature, sign_table_statement, sign], ?_⟩
  intro hne
  simp only [verifySignature, sign_table_statement, sign,
    decide_eq_false_iff_not]
  intro hcontra
  have h2 : encodeStatement st ++ [ph] = encodeStatement st ++ [ph'] :=
    congrArg Signature.message hcontra
  have h3 : [ph] = [ph'] := by
    exact List.append_cancel_left h2
  simp at h3
  exact hne h3.symm

/-- Witness for C6 at a concrete statement, key and two parent hashes. -/
theorem C6_sign_table_statement_witness :
    verifySignature (sign_table_statement (.valid 9) 7 11)
      (encodeStatement (.valid 9) ++ [11]) 7 = true ∧
    verifySignature (sign_table_statement (.valid 9) 7 11)
      (encodeStatement (.valid 9) ++ [12]) 7 = false :=
  ⟨(C6_sign_table_statement (.valid 9) 7 11 12).2.1,
   (C6_sign_table_statement (.valid 9) 7 11 12).2.2 (by decide)⟩

theorem recordMis_records (st : TableState) (a : AuthorityId)
    (m : TableMisbehavior) : (recordMis st a m).records = st.records := by
  unfold recordMis
  cases st.misbehavior a <;> rfl

theorem setRecord_records_isSome (st : TableState) (d0 : Hash)
    (rec : CandidateRecord) (d : Hash)
    (h : (st.records d).isSome = true) :
    ((setRecord st d0 rec).records d).isSome = true := by
  unfold setRecord
  by_cases hd : d = d0 <;> simp [hd, h]

theorem setRecord_records_self (st : TableState) (d : Hash)
    (rec : CandidateRecord) :
    ((setRecord st d rec).records d).isSome = true := by
  simp [setRecord]

theorem applyVote_records_isSome (ctx : TableContext) (st : TableState)
    (a : AuthorityId) (s : Statement) (d : Hash)
    (h : (st.records d).isSome = true) :
    ((applyVote ctx st a s).1.records d).isSome = true := by
  cases s with
  | candidate r => exact h
  | valid d' =>
    simp only [applyVote]
    rcases hr : st.records d' with _ | rec
    · exact h
    · by_cases hm : ctx.is_member_of a rec.group_id = false
      · simp [hm, recordMis_records, h]
      · simp only [hm, if_false]
        rcases hvv : rec.validity_votes a with _ | v
        · simp [setRecord_records_isSome, h]
        · cases v <;> simp [recordMis_records, h]
  | invalid d' =>
    simp only [applyVote]
    rcases hr : st.records d' with _ | rec
    · exact h
    · by_cases hm : ctx.is_member_of a rec.group_id = false
      · simp [hm, recordMis_records, h]
      · simp only [hm, if_false]
        rcases hvv : rec.validity_votes a with _ | v
        · simp [setRecord_records_isSome, h]
        · cases v <;> simp [recordMis_records, h]
  | available d' =>
    simp only [applyVote]
    rcases hr : st.records d' with _ | rec
    · exact h
    · by_cases hm : ctx.is_availability_guarantor_of a rec.group_id = false
      · simp [hm, recordMis_records, h]
      · by_cases hmem : a ∈ rec.availability_votes
        · simp [hm, hmem, h]
        · simp [hm, hmem, setRecord_records_isSome, h]

theorem foldl_applyVote_isSome (ctx : TableContext)
    (l : List (AuthorityId × Statement)) (st : TableState) (d : Hash)
    (h : (st.records d).isSome = true) :
    ((l.foldl (fun acc p => (applyVote ctx acc p.1 p.2).1) st).records d).isSome
      = true := by
  induction l generalizing st with
  | nil => exact h
  | cons p t ih => exact ih _ (applyVote_records_isSome ctx st p.1 p.2 d h)

theorem applyVote_summary_record (ctx : TableContext) (st : TableState)
    (a : AuthorityId) (s : Statement) (t' : TableState) (summary : Summary)
    (h : applyVote ctx st a s = (t', some summary)) :
    (t'.records summary.candidate).isSome = true := by
  cases s with
  | candidate r => simp [applyVote] at h
  | valid d' =>
    simp only [applyVote] at h
    rcases hr : st.records d' with _ | rec <;> rw [hr] at h
    · simp at h
    · by_cases hm : ctx.is_member_of a rec.group_id = false
      · simp [hm] at h
      · simp only [hm, if_false] at h
        rcases hvv : rec.validity_votes a with _ | v <;> rw [hvv] at h
        · obtain ⟨ht, hs⟩ := Prod.mk.injEq .. ▸ h
          obtain rfl := Option.some.inj hs
          subst ht
          exact setRecord_records_self ..
        · cases v <;> simp at h
  | invalid d' =>
    simp only [applyVote] at h
    rcases hr : st.records d' with _ | rec <;> rw [hr] at h
    · simp at h
    · by_cases hm : ctx.is_member_of a rec.group_id = false
      · simp [hm] at h
      · simp only [hm, if_false] at h
        rcases hvv : rec.validity_votes a with _ | v <;> rw [hvv] at h
        · obtain ⟨ht, hs⟩ := Prod.mk.injEq .. ▸ h
          obtain rfl := Option.some.inj hs
          subst ht
          exact setRecord_records_self ..
        · cases v <;> simp at h
  | available d' =>
    simp only [applyVote] at h
    rcases hr : st.records d' with _ | rec <;> rw [hr] at h
    · simp at h
    · by_cases hm : ctx.is_availability_guarantor_of a rec.group_id = false
      · simp [hm] at h
      · by_cases hmem : a ∈ rec.availability_votes
        · simp [hm, hmem] at h
        · simp only [hm, hmem, if_false, if_true, eq_self_iff_true] at h
          obtain ⟨ht, hs⟩ := Prod.mk.injEq .. ▸ h
          obtain rfl := Option.some.inj hs
          subst ht
          exact setRecord_records_self ..

theorem tableImport_summary_record (ctx : TableContext) (st : TableState)
    (s : SignedStatement) (t' : TableState) (summary : Summary)
    (h : tableImport ctx st s = (t', some summary)) :
    (t'.records summary.candidate).isSome = true := by
  unfold tableImport at h
  by_cases hv : verifySignature s.signature
      (encodeStatement s.statement ++ [ctx.parent_hash]) s.sender = false
  · rw [if_pos hv] at h; simp at h
  · rw [if_neg hv] at h
    rcases hs : s.statement with r | d | d | d <;> rw [hs] at h <;>
      dsimp only at h
    · by_cases hm : ctx.is_member_of s.sender r.group = false
      · rw [if_pos hm] at h; simp at h
      · rw [if_neg hm] at h
        rcases hp : st.proposals s.sender with _ | d0 <;> rw [hp] at h <;>
          dsimp only at h
        · rcases hr : st.records r.hash with _ | rec <;> rw [hr] at h <;>
            dsimp only at h
          · obtain ⟨ht, hsum⟩ := Prod.mk.injEq .. ▸ h
            obtain rfl := Option.some.inj hsum
            subst ht
            refine foldl_applyVote_isSome _ _ _ _ ?_
            simp [setRecord]
          · rcases hvv : rec.validity_votes s.sender with _ | v <;>
              rw [hvv] at h <;> dsimp only at h
            · obtain ⟨ht, hsum⟩ := Prod.mk.injEq .. ▸ h
              obtain rfl := Option.some.inj hsum
              subst ht
              simp [setRecord]
            · simp at h
        · by_cases hd : d0 = r.hash
          · rw [if_pos hd] at h; simp at h
          · rw [if_neg hd] at h; simp at h
    · rcases hr : st.records d with _ | rec <;> rw [hr] at h <;>
        dsimp only at h
      · simp at h
      · exact applyVote_summary_record ctx st s.sender (.valid d) t' summary h
    · rcases hr : st.records d with _ | rec <;> rw [hr] at h <;>
        dsimp only at h
      · simp at h
      · exact applyVote_summary_record ctx st s.sender (.invalid d) t' summary h
    · rcases hr : st.records d with _ | rec <;> rw [hr] at h <;>
        dsimp only at h
      · simp at h
      · exact applyVote_summary_record ctx st s.sender (.available d) t' summary h

theorem armFetches_block (p : StatementProducer) (cv ca : Bool) :
    (armFetches p cv ca).fetch_block_data =
      if cv then some ⟨false⟩ else p.fetch_block_data := by
  unfold armFetches
  cases cv <;> cases ca <;> simp

theorem armFetches_extrinsic (p : StatementProducer) (cv ca : Bool) :
    (armFetches p cv ca).fetch_extrinsic =
      if ca then some ⟨false⟩ else p.fetch_extrinsic := by
  unfold armFetches
  cases cv <;> cases ca <;> simp

theorem armFetches_digest (p : StatementProducer) (cv ca : Bool) :
    (armFetches p cv ca).candidate_digest = p.candidate_digest := by
  unfold armFetches
  cases cv <;> cases ca <;> simp

theorem propOk_iff (pd : Option Hash) (cand : Hash) :
    propOk pd cand = true ↔ pd ≠ some cand := by
  cases pd <;> simp [propOk]

theorem checkingValidity_iff (ctx : TableContext) (inner : SharedTableInner)
    (summary : Summary) :
    checkingValidity ctx inner summary = true ↔
      (ctx.is_member_of ctx.key summary.group_id = true ∧
       inner.proposed_digest ≠ some summary.candidate ∧
       summary.candidate ∉ inner.checked_validity) := by
  unfold checkingValidity
  simp [Bool.and_eq_true, propOk_iff, and_assoc]

theorem checkingAvailability_iff (ctx : TableContext)
    (inner : SharedTableInner) (summary : Summary) :
    checkingAvailability ctx inner summary = true ↔
      (ctx.is_availability_guarantor_of ctx.key summary.group_id = true ∧
       summary.candidate ∉ inner.checked_availability) := by
  unfold checkingAvailability
  simp [Bool.and_eq_true]

theorem import_statement_local_eq (ctx : TableContext)
    (inner : SharedTableInner) (s : SignedStatement) :
    SharedTableInner.import_statement ctx inner s .localSource =
      (inner, default) := rfl

theorem import_statement_remote_none_eq (ctx : TableContext)
    (inner : SharedTableInner) (s : SignedStatement)
    (sender : Option AuthorityId) (t' : TableState)
    (htab : tableImport ctx inner.table s = (t', none)) :
    SharedTableInner.import_statement ctx inner s (.remoteSource sender) =
      ({ inner with table := t' }, default) := by
  simp only [SharedTableInner.import_statement, htab]

theorem import_statement_remote_some_eq (ctx : TableContext)
    (inner : SharedTableInner) (s : SignedStatement)
    (sender : Option AuthorityId) (t' : TableState) (summary : Summary)
    (htab : tableImport ctx inner.table s = (t', some summary)) :
    SharedTableInner.import_statement ctx inner s (.remoteSource sender) =
      ({ table := t',
         proposed_digest := inner.proposed_digest,
         checked_validity :=
           if ctx.is_member_of ctx.key summary.group_id &&
               propOk inner.proposed_digest summary.candidate then
             insert summary.candidate inner.checked_validity
           else inner.checked_validity,
         checked_availability :=
           if ctx.is_availability_guarantor_of ctx.key summary.group_id then
             insert summary.candidate inner.checked_availability
           else inner.checked_availability },
       if checkingValidity ctx inner summary ||
           checkingAvailability ctx inner summary then
         match t'.records summary.candidate with
         | none =>
           { (default : StatementProducer) with
             candidate_digest := some summary.candidate }
         | some _ =>
           armFetches
             { (default : StatementProducer) with
               candidate_digest := some summary.candidate }
             (checkingValidity ctx inner summary)
             (checkingAvailability ctx inner summary)
       else
         { (default : StatementProducer) with
           candidate_digest := some summary.candidate }) := by
  simp only [SharedTableInner.import_statement, htab]

theorem default_producer_fields :
    (default : StatementProducer).fetch_block_data = none ∧
    (default : StatementProducer).fetch_extrinsic = none ∧
    (default : StatementProducer).candidate_digest = none :=
  ⟨rfl, rfl, rfl⟩

theorem import_producer_block (ctx : TableContext) (inner : SharedTableInner)
    (s : SignedStatement) (sender : Option AuthorityId) (t' : TableState)
    (summary : Summary)
    (htab : tableImport ctx inner.table s = (t', some summary)) :
    (SharedTableInner.import_statement ctx inner s
        (.remoteSource sender)).2.fetch_block_data.isSome =
      checkingValidity ctx inner summary := by
  rw [import_statement_remote_some_eq ctx inner s sender t' summary htab]
  dsimp only
  rcases hrec : t'.records summary.candidate with _ | rec
  · have hr := tableImport_summary_record ctx inner.table s t' summary htab
    rw [hrec] at hr
    simp at hr
  · by_cases hcv : checkingValidity ctx inner summary = true
    · simp [hcv, hrec, armFetches_block]
    · rw [Bool.not_eq_true] at hcv
      by_cases hca : checkingAvailability ctx inner summary = true
      · simp [hcv, hca, hrec, armFetches_block]
        rfl
      · rw [Bool.not_eq_true] at hca
        simp [hcv, hca, hrec]
        rfl

theorem import_producer_extrinsic (ctx : TableContext)
    (inner : SharedTableInner) (s : SignedStatement)
    (sender : Option AuthorityId) (t' : TableState) (summary : Summary)
    (htab : tableImport ctx inner.table s = (t', some summary)) :
    (SharedTableInner.import_statement ctx inner s
        (.remoteSource sender)).2.fetch_extrinsic.isSome =
      checkingAvailability ctx inner summary := by
  rw [import_statement_remote_some_eq ctx inner s sender t' summary htab]
  dsimp only
  rcases hrec : t'.records summary.candidate with _ | rec
  · have hr := tableImport_summary_record ctx inner.table s t' summary htab
    rw [hrec] at hr
    simp at hr
  · by_cases hca : checkingAvailability ctx inner summary = true
    · simp [hca, hrec, armFetches_extrinsic]
    · rw [Bool.not_eq_true] at hca
      by_cases hcv : checkingValidity ctx inner summary = true
      · simp [hcv, hca, hrec, armFetches_extrinsic]
        rfl
      · rw [Bool.not_eq_true] at hcv
        simp [hcv, hca, hrec]
        rfl

theorem import_producer_digest (ctx : TableContext) (inner : SharedTableInner)
    (s : SignedStatement) (sender : Option AuthorityId) (t' : TableState)
    (summary : Summary)
    (htab : tableImport ctx inner.table s = (t', some summary)) :
    (SharedTableInner.import_statement ctx inner s
        (.remoteSource sender)).2.candidate_digest = some summary.candidate := by
  rw [import_statement_remote_some_eq ctx inner s sender t' summary htab]
  dsimp only
  split
  · rcases hrec : t'.records summary.candidate with _ | rec <;>
      simp [hrec, armFetches_digest]
  · rfl

theorem import_checked_validity (ctx : TableContext)
    (inner : SharedTableInner) (s : SignedStatement)
    (sender : Option AuthorityId) (t' : TableState) (summary : Summary)
    (htab : tableImport ctx inner.table s = (t', some summary)) :
    (SharedTableInner.import_statement ctx inner s
        (.remoteSource sender)).1.checked_validity =
      (if ctx.is_member_of ctx.key summary.group_id &&
          propOk inner.proposed_digest summary.candidate then
        insert summary.candidate inner.checked_validity
      else inner.checked_validity) := by
  rw [import_statement_remote_some_eq ctx inner s sender t' summary htab]

theorem import_checked_availability (ctx : TableContext)
    (inner : SharedTableInner) (s : SignedStatement)
    (sender : Option AuthorityId) (t' : TableState) (summary : Summary)
    (htab : tableImport ctx inner.table s = (t', some summary)) :
    (SharedTableInner.import_statement ctx inner s
        (.remoteSource sender)).1.checked_availability =
      (if ctx.is_availability_guarantor_of ctx.key summary.group_id then
        insert summary.candidate inner.checked_availability
      else inner.checked_availability) := by
  rw [import_statement_remote_some_eq ctx inner s sender t' summary htab]

theorem step_checked_mono (ctx : TableContext) (inner : SharedTableInner)
    (op : TableOp) :
    inner.checked_validity ⊆ (stepOp ctx inner op).1.checked_validity ∧
    inner.checked_availability ⊆ (stepOp ctx inner op).1.checked_availability := by
  cases op with
  | importOp s src =>
    cases src with
    | localSource =>
      show inner.checked_validity ⊆
          (SharedTableInner.import_statement ctx inner s
            .localSource).1.checked_validity ∧
        inner.checked_availability ⊆
          (SharedTableInner.import_statement ctx inner s
            .localSource).1.checked_availability
      rw [import_statement_local_eq]
      exact ⟨subset_rfl, subset_rfl⟩
    | remoteSource sender =>
      show inner.checked_validity ⊆
          (SharedTableInner.import_statement ctx inner s
            (.remoteSource sender)).1.checked_validity ∧
        inner.checked_availability ⊆
          (SharedTableInner.import_statement ctx inner s
            (.remoteSource sender)).1.checked_availability
      rcases htab : tableImport ctx inner.table s with ⟨t', osum⟩
      rcases osum with _ | summary
      · rw [import_statement_remote_none_eq ctx inner s sender t' htab]
        exact ⟨subset_rfl, subset_rfl⟩
      · rw [import_checked_validity ctx inner s sender t' summary htab,
          import_checked_availability ctx inner s sender t' summary htab]
        constructor
        · split
          · exact Finset.subset_insert _ _
          · exact subset_rfl
        · split
          · exact Finset.subset_insert _ _
          · exact subset_rfl
  | signAndImportOp s =>
    show inner.checked_validity ⊆ (sign_and_import ctx inner s).1.checked_validity ∧
      inner.checked_availability ⊆ (sign_and_import ctx inner s).1.checked_availability
    unfold sign_and_import
    cases s <;> rw [import_statement_local_eq] <;> exact ⟨subset_rfl, subset_rfl⟩

theorem step_arm_block (ctx : TableContext) (inner : SharedTableInner)
    (op : TableOp) (d : Hash)
    (h : armsBlockFetch (stepOp ctx inner op).2 d = true) :
    d ∉ inner.checked_validity ∧
    d ∈ (stepOp ctx inner op).1.checked_validity := by
  cases op with
  | importOp s src =>
    cases src with
    | localSource =>
      rw [show (stepOp ctx inner (.importOp s .localSource)).2 =
          (SharedTableInner.import_statement ctx inner s .localSource).2 from rfl,
        import_statement_local_eq] at h
      simp [armsBlockFetch] at h
    | remoteSource sender =>
      rw [show stepOp ctx inner (.importOp s (.remoteSource sender)) =
          SharedTableInner.import_statement ctx inner s (.remoteSource sender)
          from rfl] at h ⊢
      rcases htab : tableImport ctx inner.table s with ⟨t', osum⟩
      rcases osum with _ | summary
      · rw [import_statement_remote_none_eq ctx inner s sender t' htab] at h
        simp [armsBlockFetch] at h
      · have hb := import_producer_block ctx inner s sender t' summary htab
        have hd := import_producer_digest ctx inner s sender t' summary htab
        rw [armsBlockFetch, Bool.and_eq_true] at h
        rw [hb] at h
        rw [hd] at h
        obtain ⟨hcv, hdd⟩ := h
        have hdd2 : summary.candidate = d := by simpa using of_decide_eq_true hdd
        subst hdd2
        obtain ⟨hm, hpr, hnotin⟩ := (checkingValidity_iff ctx inner summary).mp hcv
        refine ⟨hnotin, ?_⟩
        rw [import_checked_validity ctx inner s sender t' summary htab]
        rw [if_pos (by rw [hm, (propOk_iff _ _).mpr hpr]; rfl)]
        exact Finset.mem_insert_self _ _
  | signAndImportOp s =>
    rw [show (stepOp ctx inner (.signAndImportOp s)).2 =
        (sign_and_import ctx inner s).2 from rfl] at h
    unfold sign_and_import at h
    cases s <;> rw [import_statement_local_eq] at h <;>
      simp [armsBlockFetch] at h

theorem step_arm_extrinsic (ctx : TableContext) (inner : SharedTableInner)
    (op : TableOp) (d : Hash)
    (h : armsExtrinsicFetch (stepOp ctx inner op).2 d = true) :
    d ∉ inner.checked_availability ∧
    d ∈ (stepOp ctx inner op).1.checked_availability := by
  cases op with
  | importOp s src =>
    cases src with
    | localSource =>
      rw [show (stepOp ctx inner (.importOp s .localSource)).2 =
          (SharedTableInner.import_statement ctx inner s .localSource).2 from rfl,
        import_statement_local_eq] at h
      simp [armsExtrinsicFetch] at h
    | remoteSource sender =>
      rw [show stepOp ctx inner (.importOp s (.remoteSource sender)) =
          SharedTableInner.import_statement ctx inner s (.remoteSource sender)
          from rfl] at h ⊢
      rcases htab : tableImport ctx inner.table s with ⟨t', osum⟩
      rcases osum with _ | summary
      · rw [import_statement_remote_none_eq ctx inner s sender t' htab] at h
        simp [armsExtrinsicFetch] at h
      · have hb := import_producer_extrinsic ctx inner s sender t' summary htab
        have hd := import_producer_digest ctx inner s sender t' summary htab
        rw [armsExtrinsicFetch, Bool.and_eq_true] at h
        rw [hb] at h
        rw [hd] at h
        obtain ⟨hca, hdd⟩ := h
        have hdd2 : summary.candidate = d := by simpa using of_decide_eq_true hdd
        subst hdd2
        obtain ⟨hg, hnotin⟩ := (checkingAvailability_iff ctx inner summary).mp hca
        refine ⟨hnotin, ?_⟩
        rw [import_checked_availability ctx inner s sender t' summary htab]
        rw [if_pos hg]
        exact Finset.mem_insert_self _ _
  | signAndImportOp s =>
    rw [show (stepOp ctx inner (.signAndImportOp s)).2 =
        (sign_and_import ctx inner s).2 from rfl] at h
    unfold sign_and_import at h
    cases s <;> rw [import_statement_local_eq] at h <;>
      simp [armsExtrinsicFetch] at h

theorem run_no_arm_block (ctx : TableContext) (d : Hash) (ops : List TableOp) :
    ∀ inner, d ∈ inner.checked_validity →
      countBlockArms (runOps ctx inner ops).2 d = 0 := by
  induction ops with
  | nil => intro inner _; rfl
  | cons op rest ih =>
    intro inner h
    have hnot : armsBlockFetch (stepOp ctx inner op).2 d = false := by
      by_contra hh
      rw [Bool.not_eq_false] at hh
      exact (step_arm_block ctx inner op d hh).1 h
    show countBlockArms ((stepOp ctx inner op).2 ::
      (runOps ctx (stepOp ctx inner op).1 rest).2) d = 0
    rw [countBlockArms, List.filter_cons]
    simp only [hnot, Bool.false_eq_true, if_false]
    exact ih _ ((step_checked_mono ctx inner op).1 h)

theorem run_no_arm_extrinsic (ctx : TableContext) (d : Hash)
    (ops : List TableOp) :
    ∀ inner, d ∈ inner.checked_availability →
      countExtrinsicArms (runOps ctx inner ops).2 d = 0 := by
  induction ops with
  | nil => intro inner _; rfl
  | cons op rest ih =>
    intro inner h
    have hnot : armsExtrinsicFetch (stepOp ctx inner op).2 d = false := by
      by_contra hh
      rw [Bool.not_eq_false] at hh
      exact (step_arm_extrinsic ctx inner op d hh).1 h
    show countExtrinsicArms ((stepOp ctx inner op).2 ::
      (runOps ctx (stepOp ctx inner op).1 rest).2) d = 0
    rw [countExtrinsicArms, List.filter_cons]
    simp only [hnot, Bool.false_eq_true, if_false]
    exact ih _ ((step_checked_mono ctx inner op).2 h)

theorem run_block_le_one (ctx : TableContext) (d : Hash) (ops : List TableOp) :
    ∀ inner, countBlockArms (runOps ctx inner ops).2 d ≤ 1 := by
  induction ops with
  | nil => intro inner; simp [runOps, countBlockArms]
  | cons op rest ih =>
    intro inner
    show countBlockArms ((stepOp ctx inner op).2 ::
      (runOps ctx (stepOp ctx inner op).1 rest).2) d ≤ 1
    rw [countBlockArms, List.filter_cons]
    by_cases ha : armsBlockFetch (stepOp ctx inner op).2 d = true
    · have h0 := run_no_arm_block ctx d rest (stepOp ctx inner op).1
        (step_arm_block ctx inner op d ha).2
      rw [countBlockArms] at h0
      simp only [ha, if_true, List.length_cons, h0]
      omega
    · simp only [Bool.not_eq_true] at ha
      simp only [ha, Bool.false_eq_true, if_false]
      have := ih (stepOp ctx inner op).1
      rw [countBlockArms] at this
      exact this

theorem run_extrinsic_le_one (ctx : TableContext) (d : Hash)
    (ops : List TableOp) :
    ∀ inner, countExtrinsicArms (runOps ctx inner ops).2 d ≤ 1 := by
  induction ops with
  | nil => intro inner; simp [runOps, countExtrinsicArms]
  | cons op rest ih =>
    intro inner
    show countExtrinsicArms ((stepOp ctx inner op).2 ::
      (runOps ctx (stepOp ctx inner op).1 rest).2) d ≤ 1
    rw [countExtrinsicArms, List.filter_cons]
    by_cases ha : armsExtrinsicFetch (stepOp ctx inner op).2 d = true
    · have h0 := run_no_arm_extrinsic ctx d rest (stepOp ctx inner op).1
        (step_arm_extrinsic ctx inner op d ha).2
      rw [countExtrinsicArms] at h0
      simp only [ha, if_true, List.length_cons, h0]
      omega
    · simp only [Bool.not_eq_true] at ha
      simp only [ha, Bool.false_eq_true, if_false]
      have := ih (stepOp ctx inner op).1
      rw [countExtrinsicArms] at this
      exact this

/-- C1: across any operation sequence on a shared table starting from
`SharedTable::new`, a block-data fetch and an extrinsic-data fetch are
each armed at most once per candidate digest; on any import whose table
summary names candidate `d` in group `g`, a block-data fetch is armed
exactly when the local node is a validity member of `g`, `d` is not the
locally proposed digest, and `d` was not already in `checked_validity`,
and an extrinsic-data fetch is armed exactly when the local node is an
availability guarantor of `g` and `d` was not already in
`checked_availability`; local and summary-less imports arm nothing. -/
theorem C1_shared_table_fetch_arming (ctx : TableContext) (ops : List TableOp)
    (d : Hash) :
    countBlockArms (runOps ctx initialInner ops).2 d ≤ 1 ∧
    countExtrinsicArms (runOps ctx initialInner ops).2 d ≤ 1 ∧
    (∀ inner s sender t' summary,
      tableImport ctx inner.table s = (t', some summary) →
      (SharedTableInner.import_statement ctx inner s
          (.remoteSource sender)).2.candidate_digest = some summary.candidate ∧
      ((SharedTableInner.import_statement ctx inner s
          (.remoteSource sender)).2.fetch_block_data.isSome = true ↔
        (ctx.is_member_of ctx.key summary.group_id = true ∧
         inner.proposed_digest ≠ some summary.candidate ∧
         summary.candidate ∉ inner.checked_validity)) ∧
      ((SharedTableInner.import_statement ctx inner s
          (.remoteSource sender)).2.fetch_extrinsic.isSome = true ↔
        (ctx.is_availability_guarantor_of ctx.key summary.group_id = true ∧
         summary.candidate ∉ inner.checked_availability))) ∧
    (∀ inner s,
      (SharedTableInner.import_statement ctx inner s .localSource).2 = default) ∧
    (∀ inner s sender t',
      tableImport ctx inner.table s = (t', none) →
      (SharedTableInner.import_statement ctx inner s
          (.remoteSource sender)).2 = default) := by
  refine ⟨run_block_le_one ctx d ops initialInner,
    run_extrinsic_le_one ctx d ops initialInner, ?_, ?_, ?_⟩
  · intro inner s sender t' summary htab
    refine ⟨import_producer_digest ctx inner s sender t' summary htab, ?_, ?_⟩
    · rw [import_producer_block ctx inner s sender t' summary htab]
      exact checkingValidity_iff ctx inner summary
    · rw [import_producer_extrinsic ctx inner s sender t' summary htab]
      exact checkingAvailability_iff ctx inner summary
  · intro inner s
    rw [import_statement_local_eq]
  · intro inner s sender t' htab
    rw [import_statement_remote_none_eq ctx inner s sender t' htab]

/-- Witness for C1: importing the same remote candidate twice arms the
block-data and extrinsic-data fetches exactly once each (digest
`Nat.pair 0 5 = 25`), and the exactly-when conditions hold at the first
import. -/
theorem C1_shared_table_fetch_arming_witness :
    countBlockArms (runOps ctxC1 initialInner [opC1, opC1]).2 25 = 1 ∧
    countBlockArms (runOps ctxC1 initialInner [opC1, opC1]).2 25 ≤ 1 ∧
    countExtrinsicArms (runOps ctxC1 initialInner [opC1, opC1]).2 25 = 1 ∧
    (SharedTableInner.import_statement ctxC1 initialInner signedC1
        (.remoteSource (some 1))).2.fetch_block_data.isSome = true := by
  have hA := C1_shared_table_fetch_arming ctxC1 [opC1, opC1] 25
  refine ⟨by decide, hA.1, by decide, ?_⟩
  have he : (tableImport ctxC1 initialInner.table signedC1).2 =
      some ⟨25, 0⟩ := by decide
  have h2 : tableImport ctxC1 initialInner.table signedC1 =
      ((tableImport ctxC1 initialInner.table signedC1).1, some ⟨25, 0⟩) := by
    rw [← he]
  exact (hA.2.2.1 initialInner signedC1 (some 1) _ ⟨25, 0⟩ h2).2.1.mpr
    ⟨by decide, by decide, by decide⟩

theorem mapIdx_arg_congr {α β : Type} (f g : Nat → α → β) (l : List α)
    (h : ∀ i a, f i a = g i a) : l.mapIdx f = l.mapIdx g := by
  rw [List.mapIdx_eq_enum_map, List.mapIdx_eq_enum_map]
  exact List.map_congr_left (fun x _ => h x.1 x.2)

theorem reportable_cons_outOfTurn (t : AuthorityId) (r : Nat) (h1 h2 : Hash)
    (ms : List (AuthorityId × BftMisbehavior)) :
    reportable ((t, .proposeOutOfTurn r h1 h2) :: ms) = reportable ms := by
  simp [reportable, reportKind]

theorem reportable_cons_doublePropose (t : AuthorityId) (r : Nat)
    (h1 h2 : Hash) (ms : List (AuthorityId × BftMisbehavior)) :
    reportable ((t, .doublePropose r h1 h2) :: ms) = reportable ms := by
  simp [reportable, reportKind]

theorem reportable_cons_doublePrepare (t : AuthorityId) (r : Nat)
    (p1 p2 : Hash × Signature) (ms : List (AuthorityId × BftMisbehavior)) :
    reportable ((t, .doublePrepare r p1 p2) :: ms) =
      (t, MisbehaviorKind.bftDoublePrepare r p1 p2) :: reportable ms := by
  simp [reportable, reportKind]

theorem reportable_cons_doubleCommit (t : AuthorityId) (r : Nat)
    (p1 p2 : Hash × Signature) (ms : List (AuthorityId × BftMisbehavior)) :
    reportable ((t, .doubleCommit r p1 p2) :: ms) =
      (t, MisbehaviorKind.bftDoubleCommit r p1 p2) :: reportable ms := by
  simp [reportable, reportKind]

theorem importMisbehaviorLoop_eq_mapIdx (lk : AuthorityId) (ph : Hash)
    (pn : Nat) (ms : List (AuthorityId × BftMisbehavior)) (n : Nat) :
    importMisbehaviorLoop lk ph pn n ms =
      (reportable ms).mapIdx
        (fun i tk => mkUncheckedExtrinsic lk ph pn (n + i) tk.1 tk.2) := by
  induction ms generalizing n with
  | nil => simp [importMisbehaviorLoop, reportable]
  | cons x rest ih =>
    obtain ⟨target, mis⟩ := x
    cases mis with
    | proposeOutOfTurn r h1 h2 =>
      show importMisbehaviorLoop lk ph pn n rest = _
      rw [ih n, reportable_cons_outOfTurn]
    | doublePropose r h1 h2 =>
      show importMisbehaviorLoop lk ph pn n rest = _
      rw [ih n, reportable_cons_doublePropose]
    | doublePrepare r p1 p2 =>
      show _ :: importMisbehaviorLoop lk ph pn (n + 1) rest = _
      rw [ih (n + 1), reportable_cons_doublePrepare, List.mapIdx_cons]
      congr 1
      refine mapIdx_arg_congr _ _ _ (fun i a => ?_)
      have hni : n + 1 + i = n + (i + 1) := by omega
      rw [hni]
    | doubleCommit r p1 p2 =>
      show _ :: importMisbehaviorLoop lk ph pn (n + 1) rest = _
      rw [ih (n + 1), reportable_cons_doubleCommit, List.mapIdx_cons]
      congr 1
      refine mapIdx_arg_congr _ _ _ (fun i a => ?_)
      have hni : n + 1 + i = n + (i + 1) := by omega
      rw [hni]

theorem importMisbehaviorLoop_mem (lk : AuthorityId) (ph : Hash) (pn : Nat)
    (ms : List (AuthorityId × BftMisbehavior)) (n : Nat) :
    ∀ uxt ∈ importMisbehaviorLoop lk ph pn n ms,
      uxt.extrinsic.signed = lk ∧
      uxt.signature = sign lk (encodeExtrinsic uxt.extrinsic) := by
  induction ms generalizing n with
  | nil => intro uxt h; simp [importMisbehaviorLoop] at h
  | cons x rest ih =>
    obtain ⟨target, mis⟩ := x
    intro uxt h
    cases mis with
    | proposeOutOfTurn r h1 h2 => exact ih n uxt h
    | doublePropose r h1 h2 => exact ih n uxt h
    | doublePrepare r p1 p2 =>
      rcases List.mem_cons.mp h with rfl | h
      · exact ⟨rfl, rfl⟩
      · exact ih (n + 1) uxt h
    | doubleCommit r p1 p2 =>
      rcases List.mem_cons.mp h with rfl | h
      · exact ⟨rfl, rfl⟩
      · exact ih (n + 1) uxt h

/-- C7: `import_misbehavior` ignores `ProposeOutOfTurn`/`DoublePropose`
entries (no extrinsic, no index), emits exactly one locally-signed
`MisbehaviorReport` extrinsic per `DoublePrepare`/`DoubleCommit` entry,
and assigns consecutive indices starting one past the last pending pool
index signed by the local key or, when there is none, one past
`client.index(parent_id, local_id)`. -/
theorem C7_import_misbehavior (lk : AuthorityId) (ph : Hash) (pn : Nat)
    (lastPending : Option Nat) (clientIndex : Except Nat Nat)
    (ms : List (AuthorityId × BftMisbehavior)) :
    (∀ i, lastPending = some i →
      import_misbehavior lk ph pn lastPending clientIndex ms =
        (reportable ms).mapIdx
          (fun j tk => mkUncheckedExtrinsic lk ph pn (i + 1 + j) tk.1 tk.2)) ∧
    (∀ c, lastPending = none → clientIndex = .ok c →
      import_misbehavior lk ph pn lastPending clientIndex ms =
        (reportable ms).mapIdx
          (fun j tk => mkUncheckedExtrinsic lk ph pn (c + 1 + j) tk.1 tk.2)) ∧
    (∀ uxt ∈ import_misbehavior lk ph pn lastPending clientIndex ms,
      uxt.extrinsic.signed = lk ∧
      uxt.signature = sign lk (encodeExtrinsic uxt.extrinsic)) := by
  refine ⟨?_, ?_, ?_⟩
  · intro i h
    rw [show import_misbehavior lk ph pn lastPending clientIndex ms =
        importMisbehaviorLoop lk ph pn (i + 1) ms by
      rw [import_misbehavior.eq_def, h]]
    exact importMisbehaviorLoop_eq_mapIdx lk ph pn ms (i + 1)
  · intro c h1 h2
    rw [show import_misbehavior lk ph pn lastPending clientIndex ms =
        importMisbehaviorLoop lk ph pn (c + 1) ms by
      rw [import_misbehavior.eq_def, h1, h2]]
    exact importMisbehaviorLoop_eq_mapIdx lk ph pn ms (c + 1)
  · intro uxt h
    rw [import_misbehavior.eq_def] at h
    rcases lastPending with _ | i
    · rcases clientIndex with e | c
      · simp at h
      · exact importMisbehaviorLoop_mem lk ph pn ms _ uxt h
    · exact importMisbehaviorLoop_mem lk ph pn ms _ uxt h

/-- Witness for C7: with no pending local transaction and
`client.index = 5`, a list of one ignored and one reportable entry
produces exactly one extrinsic at index 6. -/
theorem C7_import_misbehavior_witness :
    import_misbehavior 3 1 2 none (.ok 5)
      [(9, .proposeOutOfTurn 0 0 0),
       (8, .doublePrepare 1 (4, sign 9 [1]) (5, sign 9 [2]))] =
      [mkUncheckedExtrinsic 3 1 2 6 8
        (.bftDoublePrepare 1 (4, sign 9 [1]) (5, sign 9 [2]))] := by
  have h := (C7_import_misbehavior 3 1 2 none (.ok 5)
    [(9, .proposeOutOfTurn 0 0 0),
     (8, .doublePrepare 1 (4, sign 9 [1]) (5, sign 9 [2]))]).2.1 5 rfl rfl
  rw [h]
  rfl

theorem agreeAt_refl (st : GlobalState) (b : AccountId) : agreeAt st st b :=
  ⟨rfl, rfl, fun _ => rfl⟩

theorem agreeAt_trans {s1 s2 s3 : GlobalState} {b : AccountId}
    (h1 : agreeAt s1 s2 b) (h2 : agreeAt s2 s3 b) : agreeAt s1 s3 b :=
  ⟨h1.1.trans h2.1, h1.2.1.trans h2.2.1, fun k => (h1.2.2 k).trans (h2.2.2 k)⟩

theorem applyCodeStorage_agree_other (st : GlobalState) (a : AccountId)
    (e : ChangeEntry) (b : AccountId) (h : b ≠ a) :
    agreeAt (applyCodeStorage st a e) st b := by
  unfold applyCodeStorage agreeAt
  cases hc : e.code <;> simp [h]

theorem sfbc_agree_other (ed : Balance) (st : GlobalState) (a : AccountId)
    (bal : Balance) (b : AccountId) (h : b ≠ a) :
    agreeAt (set_free_balance_creating ed st a bal).1 st b := by
  unfold set_free_balance_creating agreeAt
  by_cases hk : bal < ed <;> simp [hk, h]

theorem commitOne_agree_other (ed : Balance) (st : GlobalState)
    (x : AccountId × ChangeEntry) (b : AccountId) (h : b ≠ x.1) :
    agreeAt (commitOne ed st x) st b := by
  obtain ⟨a, e⟩ := x
  simp only at h
  unfold commitOne
  cases hb : e.balance with
  | none => exact applyCodeStorage_agree_other st a e b h
  | some bal =>
    simp only
    cases ho : (set_free_balance_creating ed st a bal).2 with
    | accountKilled => exact sfbc_agree_other ed st a bal b h
    | updated =>
      exact agreeAt_trans
        (applyCodeStorage_agree_other _ a e b h)
        (sfbc_agree_other ed st a bal b h)

theorem commitOne_agree_congr (ed : Balance) (st st' : GlobalState)
    (b : AccountId) (e : ChangeEntry) (h : agreeAt st st' b) :
    agreeAt (commitOne ed st (b, e)) (commitOne ed st' (b, e)) b := by
  obtain ⟨h1, h2, h3⟩ := h
  unfold commitOne set_free_balance_creating applyCodeStorage agreeAt
  cases hb : e.balance with
  | none =>
    cases hc : e.code <;>
      refine ⟨by simp [h1], by simp [h2], fun k => ?_⟩ <;>
      · simp only
        cases e.storage k <;> simp [h3 k]
  | some bal =>
    by_cases hk : bal < ed
    · simp [hk]
    · simp only [if_neg hk]
      cases hc : e.code <;>
        refine ⟨by simp, by simp [h2], fun k => ?_⟩ <;>
        · simp only
          cases e.storage k <;> simp [h3 k]

theorem foldl_agree_not_mem (ed : Balance)
    (t : List (AccountId × ChangeEntry)) (st : GlobalState) (b : AccountId)
    (h : b ∉ t.map Prod.fst) :
    agreeAt (t.foldl (commitOne ed) st) st b := by
  induction t generalizing st with
  | nil => exact agreeAt_refl st b
  | cons x t ih =>
    simp only [List.map_cons, List.mem_cons, not_or] at h
    exact agreeAt_trans (ih (commitOne ed st x) h.2)
      (commitOne_agree_other ed st x b h.1)

theorem commit_at_key (ed : Balance) (cs : List (AccountId × ChangeEntry))
    (st : GlobalState) (b : AccountId) (e : ChangeEntry)
    (hmem : (b, e) ∈ cs) (hnodup : (cs.map Prod.fst).Nodup) :
    agreeAt (commit ed st cs) (commitOne ed st (b, e)) b := by
  induction cs generalizing st with
  | nil => simp at hmem
  | cons x t ih =>
    simp only [List.map_cons, List.nodup_cons] at hnodup
    rcases List.mem_cons.mp hmem with hx | hmem'
    · subst hx
      have hnot : b ∉ t.map Prod.fst := hnodup.1
      exact foldl_agree_not_mem ed t (commitOne ed st (b, e)) b hnot
    · have hx1 : x.1 ≠ b := by
        intro hxb
        exact hnodup.1 (hxb ▸ List.mem_map_of_mem Prod.fst hmem')
      have h1 := ih (commitOne ed st x) hmem' hnodup.2
      have h2 : agreeAt (commitOne ed st x) st b :=
        commitOne_agree_other ed st x b (Ne.symm hx1)
      exact agreeAt_trans h1 (commitOne_agree_congr ed _ st b e h2)

theorem commitOne_killed (ed : Balance) (st : GlobalState) (b : AccountId)
    (e : ChangeEntry) (bal : Balance) (hb : e.balance = some bal)
    (hk : bal < ed) :
    (commitOne ed st (b, e)).freeBalance b = 0 ∧
    (commitOne ed st (b, e)).codeOf b = [] ∧
    ∀ k, (commitOne ed st (b, e)).storageOf b k = none := by
  unfold commitOne set_free_balance_creating
  simp [hb, hk]

/-- C9: when a change set's balance write kills an account
(`set_free_balance_creating` reports `AccountKilled`, i.e. the new
balance is below the existential deposit), that account's code and
storage entries of the change set are not written — the account ends
purged — while every other account of the change set has its own entry
applied exactly as if alone. -/
theorem C9_commit_kill_skips_writes (ed : Balance) (st : GlobalState)
    (cs : List (AccountId × ChangeEntry))
    (hnodup : (cs.map Prod.fst).Nodup) (a : AccountId) (e : ChangeEntry)
    (bal : Balance) (hmem : (a, e) ∈ cs) (hb : e.balance = some bal)
    (hkill : bal < ed) :
    (commit ed st cs).freeBalance a = 0 ∧
    (commit ed st cs).codeOf a = [] ∧
    (∀ k, (commit ed st cs).storageOf a k = none) ∧
    (∀ b e', (b, e') ∈ cs → b ≠ a →
      agreeAt (commit ed st cs) (commitOne ed st (b, e')) b) := by
  obtain ⟨a1, a2, a3⟩ := commit_at_key ed cs st a e hmem hnodup
  obtain ⟨k1, k2, k3⟩ := commitOne_killed ed st a e bal hb hkill
  refine ⟨a1.trans k1, a2.trans k2, fun k => (a3 k).trans (k3 k), ?_⟩
  intro b e' hb' _
  exact commit_at_key ed cs st b e' hb' hnodup

/-- Witness for C9: with existential deposit 10, committing a change set
that sets account 1's balance to 5 (killing it) and account 2's to 50
leaves account 1 purged — its entry's code `[7]` is not written — while
account 2's code write `[8]` is applied. -/
theorem C9_commit_kill_skips_writes_witness :
    (commit 10 stC9 [(1, entryKill), (2, entryLive)]).codeOf 1 = [] ∧
    (commit 10 stC9 [(1, entryKill), (2, entryLive)]).storageOf 1 [0] = none ∧
    (commit 10 stC9 [(1, entryKill), (2, entryLive)]).codeOf 2 = [8] := by
  have h := C9_commit_kill_skips_writes 10 stC9 [(1, entryKill), (2, entryLive)]
    (by simp) 1 entryKill 5 (List.mem_cons_self _ _) rfl (by norm_num)
  refine ⟨h.2.1, h.2.2.1 [0], ?_⟩
  have h4 := h.2.2.2 2 entryLive
    (List.mem_cons_of_mem _ (List.mem_cons_self _ _)) (by norm_num)
  have hc : (commitOne 10 stC9 (2, entryLive)).codeOf 2 = [8] := rfl
  exact h4.2.1.trans hc

/-- C2: polling a `StatementProducer` with no candidate digest
immediately yields the (empty) produced buffer; with a digest set, a
yield can only happen once every armed fetch has resolved (each armed
fetch's payload is present in the yield), the yielded statements contain
`availability = Some(Available(digest))` exactly when both payloads are
present, never contain a `Valid` statement, and the internal buffer is
reset to empty on yield; moreover every poll preserves the
empty-validity/empty-availability buffer invariants and the digest. -/
theorem default_produced_statements :
    (default : ProducedStatements) = ⟨none, none, none, none⟩ := rfl

set_option maxHeartbeats 1600000 in
theorem C2_statement_producer_poll (p : StatementProducer)
    (rb : FetchResponse BlockData) (re : FetchResponse ExtrinsicData) :
    (p.candidate_digest = none → p.produced_statements = default →
      p.poll rb re = ({ p with produced_statements := default }, .ready default)) ∧
    (∀ d p' r, p.candidate_digest = some d → p.poll rb re = (p', .ready r) →
      (p.fetch_block_data.isSome → r.block_data.isSome) ∧
      (p.fetch_extrinsic.isSome → r.extrinsic.isSome) ∧
      (p.produced_statements.availability = none →
        (r.availability = some (Statement.available d) ↔
          (r.block_data.isSome ∧ r.extrinsic.isSome))) ∧
      (p.produced_statements.validity = none → r.validity = none) ∧
      p'.produced_statements = default) ∧
    (∀ p' pr, p.poll rb re = (p', pr) →
      (p.produced_statements.validity = none →
        p'.produced_statements.validity = none) ∧
      (p.produced_statements.availability = none →
        p'.produced_statements.availability = none) ∧
      p'.candidate_digest = p.candidate_digest) := by
  obtain ⟨fbd, fex, prod, dig⟩ := p
  cases dig with
  | none =>
    refine ⟨?_, ?_, ?_⟩
    · intro _ h2
      change prod = default at h2
      subst h2
      rfl
    · intro d p' r hdig _
      simp [StatementProducer.poll] at hdig
    · intro p' pr hpoll
      obtain ⟨pv, pa, pb, pe⟩ := prod
      simp_all [StatementProducer.poll]
      obtain ⟨hp2, hr2⟩ := hpoll
      subst hp2
      exact ⟨fun _ => rfl, fun _ => rfl, rfl⟩
  | some d0 =>
    refine ⟨?_, ?_, ?_⟩
    · intro h1 _
      simp at h1
    · intro d p' r hdig hpoll
      obtain rfl : d0 = d := by simpa using hdig
      obtain ⟨pv, pa, pb, pe⟩ := prod
      rcases fbd with _ | ⟨(_ | _)⟩ <;> rcases fex with _ | ⟨(_ | _)⟩ <;>
        cases rb <;> cases re <;> cases pb <;> cases pe <;>
        simp_all [StatementProducer.poll, pollFuse, default_produced_statements] <;>
        (obtain ⟨hp2, hr2⟩ := hpoll) <;> (try subst hp2) <;> (try subst hr2) <;>
        simp_all [default_produced_statements]
    · intro p' pr hpoll
      obtain ⟨pv, pa, pb, pe⟩ := prod
      rcases fbd with _ | ⟨(_ | _)⟩ <;> rcases fex with _ | ⟨(_ | _)⟩ <;>
        cases rb <;> cases re <;> cases pb <;> cases pe <;>
        simp_all [StatementProducer.poll, pollFuse, default_produced_statements] <;>
        (obtain ⟨hp2, hr2⟩ := hpoll) <;> (try subst hp2) <;> (try subst hr2) <;>
        simp_all [default_produced_statements]

/-- Witness for C2: a producer with digest 7 and both fetches armed,
receiving both payloads in one step, yields
`availability = Available(7)`, no `Valid` statement, and a reset
buffer. -/
theorem C2_statement_producer_poll_witness :
    (StatementProducer.poll ⟨some ⟨false⟩, some ⟨false⟩, default, some 7⟩
        (.ready 1) (.ready 2)).2 =
      .ready ⟨none, some (Statement.available 7), some 1, some 2⟩ ∧
    ∀ p' r,
      StatementProducer.poll ⟨some ⟨false⟩, some ⟨false⟩, default, some 7⟩
        (.ready 1) (.ready 2) = (p', .ready r) →
      r.validity = none ∧ p'.produced_statements = default := by
  refine ⟨by decide, ?_⟩
  intro p' r h
  have h2 := (C2_statement_producer_poll
    ⟨some ⟨false⟩, some ⟨false⟩, default, some 7⟩ (.ready 1) (.ready 2)).2.1
    7 p' r rfl h
  exact ⟨h2.2.2.2.1 rfl, h2.2.2.2.2⟩

/-- C8: a drain returns exactly the items added since the previous drain
(or since construction for the first drain), in insertion order; the pool
is empty immediately after, so a second drain with no intervening adds
returns the empty sequence. -/
theorem C8_inherents_pool_drain {T : Type} (xs : List T) (q : InherentsPool T) :
    ((xs.foldl InherentsPool.add InherentsPool.empty).drain).1 = xs ∧
    ((xs.foldl InherentsPool.add (q.drain).2).drain).1 = xs ∧
    ((xs.foldl InherentsPool.add (q.drain).2).drain).2.data = [] ∧
    ((((xs.foldl InherentsPool.add (q.drain).2).drain).2).drain).1 = [] := by
  refine ⟨?_, ?_, ?_, ?_⟩
  · simp [InherentsPool.drain, InherentsPool.add_foldl_data, InherentsPool.empty]
  · simp [InherentsPool.drain, InherentsPool.add_foldl_data]
  · simp [InherentsPool.drain]
  · simp [InherentsPool.drain]

end Spec2Proof
